import Mathlib

/-!
Verification development for the `embrelpredict.learn` module.

The module (src/embrelpredict/learn.py) orchestrates repeated training and
evaluation runs of binary classifiers over word-relation datasets and
persists the resulting metrics to a directory tree.  This file gives a
shallow embedding of that module and proves or refutes the frozen claims
about it.

Modelling conventions
- Python strings handled character by character (filename parsing) are
  embedded as `List Char`; names used only as dictionary keys or path
  components stay `String`.
- Python `int` is `ℤ`, tensor label values are `ℚ` (labels come from a
  float tensor, so fractional values such as 1/2 are representable).
- The external collaborators (the data loaders, the model classes and the
  `ModelTrainer` from `embrelpredict.model` and `embrelpredict.evalclass`,
  declared out of scope by the design) are embedded as oracle records of
  pure functions, and the side effects the claims talk about (invoking a
  loader, constructing a model) are made observable as an event trace.
- The filesystem written by `store_learn_result` is embedded as a list of
  (path, file content) pairs in write order; `os.listdir` is modelled as
  enumeration in first-write order, and reading a path that was written
  twice yields the last write.  File contents are stored as the parsed
  values (the `json` and `pandas` serialization layers are collaborator
  contracts, exact for the integer/string/table payloads used here).
-/

/-! ## Python string primitives: `str.find`, slicing, `int()` -/

/-- Auxiliary scan for `str.find`: index of the first occurrence of `sub`
starting from index `i`, if any. -/
def pyFindAux (sub : List Char) : List Char → ℕ → Option ℕ
  | [], i => if sub = [] then some i else none
  | c :: rest, i =>
    if sub.isPrefixOf (c :: rest) then some i else pyFindAux sub rest (i + 1)

/-- Python `s.find(sub)`: index of the first occurrence, `-1` if absent. -/
def pyFind (s sub : List Char) : ℤ :=
  match pyFindAux sub s 0 with
  | some i => (i : ℤ)
  | none => -1

/-- Resolve one slice endpoint the way Python does: negative indices count
from the end and everything is clamped into `[0, L]`. -/
def pySliceIdx (L : ℕ) (i : ℤ) : ℕ :=
  if i < 0 then ((L : ℤ) + i).toNat else min i.toNat L

/-- Python `s[a:b]` (step 1). -/
def pySlice (s : List Char) (a b : ℤ) : List Char :=
  (s.take (pySliceIdx s.length b)).drop (pySliceIdx s.length a)

/-- Characters stripped by Python `int()` around the digits. -/
def pyIsSpace (c : Char) : Bool :=
  c = ' ' || c = '\t' || c = '\n' || c = '\r'

/-- Valid digit-and-underscore body of a Python integer literal, after an
optional sign: digits with single underscores strictly between digits. -/
def pyDigitsBody : List Char → Bool
  | [] => true
  | '_' :: c :: rest => c.isDigit && pyDigitsBody rest
  | '_' :: [] => false
  | c :: rest => c.isDigit && pyDigitsBody rest

/-- Decimal value of a digit list (underscores removed beforehand). -/
def digitsVal (l : List Char) : ℤ :=
  l.foldl (fun a c => a * 10 + ((c.toNat - '0'.toNat : ℕ) : ℤ)) 0

/-- Unsigned integer literal: nonempty, starts with a digit, then
`pyDigitsBody`. -/
def pyUnsigned (l : List Char) : Bool :=
  match l with
  | [] => false
  | c :: rest => c.isDigit && pyDigitsBody rest

/-- Python `int(s)` on a string: strips whitespace, allows one sign, and
accepts digits with single interior underscores. -/
def pyInt (s : List Char) : Except String ℤ :=
  let t := ((s.dropWhile pyIsSpace).reverse.dropWhile pyIsSpace).reverse
  match t with
  | '-' :: rest =>
    if pyUnsigned rest then .ok (-(digitsVal (rest.filter (fun c => c ≠ '_'))))
    else .error "ValueError: invalid literal for int"
  | '+' :: rest =>
    if pyUnsigned rest then .ok (digitsVal (rest.filter (fun c => c ≠ '_')))
    else .error "ValueError: invalid literal for int"
  | _ =>
    if pyUnsigned t then .ok (digitsVal (t.filter (fun c => c ≠ '_')))
    else .error "ValueError: invalid literal for int"

/-! ## The epoch heuristic `_epochs_from_trainset_size`

The source computes, in float arithmetic,
`round(2 ** (5 - round(log10(n/2) - 1)) * 3)`.
We embed the formula in exact arithmetic.  `round(log10 (n/2))` is
characterized without logarithms: it is the unique `k ≥ 0` with
`10^(k - 1/2) < n/2 < 10^(k + 1/2)`, i.e. (squaring and clearing
denominators) `4 * 10^(2k) < 10 * n^2 < 4 * 10^(2k+2)`; ties
(`log10(n/2)` an exact half-integer) cannot occur because
`10 * n^2 = 4 * 10^(2k)` forces `10^(2k-1)` to be a perfect square.
Since the upper condition is monotone in `k`, the value is the least `k`
satisfying it, found by `orderSearch`.  `round(x - 1) = round(x) - 1`
holds because there are no ties.  The lemmas `orderSearch_spec`,
`cond_self`, `rnd_spec`, `rnd_eq_of` and `rnd_ten` below pin this
characterization down arithmetically. -/

/-- Least `k ≥ start` with `10 * n^2 < 4 * 10^(2k+2)`, searched with
explicit fuel so that the definition is structural and computes. -/
def orderSearch (n : ℕ) : ℕ → ℕ → ℕ
  | 0, k => k
  | fuel + 1, k =>
    if 10 * n ^ 2 < 4 * 10 ^ (2 * k + 2) then k else orderSearch n fuel (k + 1)

/-- `round(log10(n/2))` for `n ≥ 1` (see the discussion above); `0` at
`n = 0`, where the Python code would raise a math domain error. -/
def rndLog10Half (n : ℕ) : ℕ :=
  orderSearch n (n + 1) 0

/-- Python `round`: round half to even (banker's rounding), on `ℚ`. -/
def pyRound (q : ℚ) : ℤ :=
  if q - (⌊q⌋ : ℚ) < 1 / 2 then ⌊q⌋
  else if 1 / 2 < q - (⌊q⌋ : ℚ) then ⌊q⌋ + 1
  else if ⌊q⌋ % 2 = 0 then ⌊q⌋ else ⌊q⌋ + 1

/-- `_epochs_from_trainset_size` from the source:
`order = round(log10(n/2) - 1)`, `inv_order = 5 - order`,
`factor = 2 ** inv_order`, result `round(factor * 3)`. -/
def epochs_from_trainset_size (n : ℕ) : ℤ :=
  let order : ℤ := (rndLog10Half n : ℤ) - 1
  let inv_order : ℤ := 5 - order
  let factor : ℚ := (2 : ℚ) ^ inv_order
  pyRound (factor * 3)

/-! ## The model factory `_build_model` -/

/-- The classifier architectures the factory can build (the classes
`LogisticRegression`, `NNBiClassifier`, `DummyBiClassifier` of
`embrelpredict.model` are external; we record the construction call). -/
inductive BModel where
  | logisticRegression (indim : ℕ)
  | nnBiClassifier (indim : ℕ) (layer_dims : List ℕ) (dropouts : List ℚ)
  | dummyBiClassifier (indim : ℕ) (predef : List ℚ)
deriving DecidableEq

/-- `_build_model(name, indim)`.  Unknown names raise (in the source the
raise itself trips over a `%d` format applied to a string, but an
exception is raised either way); `nn2`/`nn3` with an input dimension
other than 300 or 600 raise. -/
def build_model (name : String) (indim : ℕ) : Except String BModel :=
  if name = "logreg" then
    .ok (.logisticRegression indim)
  else if name = "nn1" then
    .ok (.nnBiClassifier indim [indim] [1/2])
  else if name = "nn2" then
    if indim = 600 then .ok (.nnBiClassifier indim [750, 400] [1/2, 1/2])
    else if indim = 300 then .ok (.nnBiClassifier indim [400, 150] [1/2, 1/2])
    else .error "Unexpected input dimension"
  else if name = "nn3" then
    if indim = 600 then
      .ok (.nnBiClassifier indim [750, 500, 250] [1/2, 1/2, 1/2])
    else if indim = 300 then
      .ok (.nnBiClassifier indim [400, 200, 100] [1/2, 1/2, 1/2])
    else .error "Unexpected input dimension"
  else if name = "alwaysT" then
    .ok (.dummyBiClassifier indim [1/100, 99/100])
  else if name = "alwaysF" then
    .ok (.dummyBiClassifier indim [99/100, 1/100])
  else .error "Unknown model name"

/-! ## Data model

`EmbRunResult` is the dictionary built at lines 189-198 of the source,
`LearnResult` the dictionary returned by `learn_rel`, `RelMeta` one row of
the metadata frame of `load_rels_meta`.  Tables (`pandas.DataFrame`) are
a header plus rows of numeric cells; metric mappings are flat ordered
key/value lists (Python dicts preserve insertion order). -/

/-- A flat JSON object of metric name to numeric value (spec section 6). -/
abbrev Metrics := List (String × ℚ)

/-- A `pandas.DataFrame` payload: column names and numeric rows. -/
structure DF where
  cols : List String
  rows : List (List ℚ)
deriving DecidableEq

/-- One run result dictionary (source lines 189-198). -/
structure EmbRunResult where
  model : String
  i : ℤ
  emb : String
  epochs : ℤ
  pos_exs : ℤ
  dataset_size : ℤ
  dataset_tok_cnt : ℤ
  dataset_tok_found : ℤ
  trainer_df : DF
  pretrain_test_result : Metrics
  test_df : DF
  test_random_result : Metrics
deriving DecidableEq

/-- The aggregate result of `learn_rel` / `load_learn_result`.  `pos_exs`
is an `Option` because the loader initialises it to `None` and may leave
it so when a stored relation has no runs. -/
structure LearnResult where
  rel_name : String
  rel_type : String
  pos_exs : Option ℤ
  emb_model_results : List (String × List EmbRunResult)
deriving DecidableEq

/-- One relation metadata record (a row of the frame of
`load_rels_meta`). -/
structure RelMeta where
  type : List Char
  name : List Char
  cnt : ℤ
  file : List Char
deriving DecidableEq

/-- Observable side effects of `learn_rel`: invoking a data loader
(one of its three loading methods) and constructing a model. -/
inductive Ev where
  | loadCall (loader : String)
  | buildCall (name : String) (indim : ℕ)
deriving DecidableEq

/-- What a data-loader method returns: `(X, Y, ds_n, ds_tc, ds_tf)`.
Of the tensor `X` only its shape is consumed by this module
(`X.shape[0]` and `X.shape[1]`); the label tensor `Y` is a list of
numeric values. -/
structure LoadOut where
  shape : ℕ × ℕ
  Y : List ℚ
  ds_n : ℤ
  ds_tc : ℤ
  ds_tf : ℤ

/-- The data-loader collaborator contract (spec section 6), as an oracle
of pure functions.  `Part` is the abstract type of the train/valid/test
partitions. -/
structure DataLoader (Part : Type) where
  generate_random_pair_data : ℤ → LoadOut
  load_single_data : List Char → LoadOut
  load_pair_data : List Char → LoadOut
  split_data : LoadOut → ℤ → Part × Part × Part

/-- The `ModelTrainer` collaborator contract, as a deterministic oracle.
`test model cuda part` is `ModelTrainer(model, cuda).test(part)` before
training; `train_outputs model cuda train valid epochs_list disturber
test debug` packages the post-training observations
`(trainer.df, trainer.test_df(test, debug), trainer.test_random(test))`.
`D` is the abstract type of the input disturber. -/
structure TrainerO (Part D : Type) where
  test : BModel → Bool → Part → Metrics
  train_outputs :
    BModel → Bool → Part → Part → List ℕ → Option D → Part → Bool →
      DF × DF × Metrics

/-! ## Association-list and dictionary helpers -/

/-- First-match lookup in an association list (Python dict access). -/
def lookupA {β : Type} (l : List (String × β)) (k : String) : Option β :=
  (l.find? (fun p => p.1 = k)).map (fun p => p.2)

/-- The accumulation step of the training loop:
`model_results = emb_model_results.get(loader_name, []);
model_results.append(model_result);
emb_model_results[loader_name] = model_results`.
A present key keeps its position, a new key is appended at the end
(Python dict insertion order). -/
def upsertAppend {β : Type} :
    List (String × List β) → String → β → List (String × List β)
  | [], k, v => [(k, [v])]
  | (k0, l0) :: rest, k, v =>
    if k0 = k then (k0, l0 ++ [v]) :: rest
    else (k0, l0) :: upsertAppend rest k v

/-! ## The orchestrator `learn_rel` -/

/-- The empty result returned by the two short-circuit branches. -/
def empty_result (rm : RelMeta) : LearnResult :=
  ⟨String.mk rm.name, String.mk rm.type, some rm.cnt, []⟩

/-- The data-loading step of one loop iteration (source lines 158-166):
choose the loading strategy by relation type. -/
def loadFor {Part : Type} (dl : DataLoader Part) (rm : RelMeta)
    (single_rel_types : List (List Char)) (relpath : List Char) : LoadOut :=
  let fpath := relpath ++ ('/' :: rm.file)
  if rm.type = "rnd2rnd".toList then
    dl.generate_random_pair_data (rm.cnt * 2)
  else if rm.type ∈ single_rel_types then
    dl.load_single_data fpath
  else
    dl.load_pair_data fpath

/-- One iteration of the training loop of `learn_rel` (source lines
155-210), for the combination `(m, ln, run)`.  Returns the run result or
the propagated exception, together with the trace of loader invocations
and model constructions.  The `assert torch.max(Y) == 1 and
torch.min(Y) == 0` appears as the binary-labels test; an empty label
tensor also raises (in `torch.max`).  -/
def runCombo {Part D : Type} (tr : TrainerO Part D) (relpath : List Char)
    (rm : RelMeta) (data_loaders : List (String × DataLoader Part))
    (single_rel_types : List (List Char)) (epochs_fn : ℕ → ℤ)
    (disturber : Option D) (debug : Bool) (cuda : Bool)
    (m ln : String) (run : ℕ) : Except String EmbRunResult × List Ev :=
  match lookupA data_loaders ln with
  | none => (.error "KeyError", [])
  | some dl =>
    let out := loadFor dl rm single_rel_types relpath
    let ev := [Ev.loadCall ln]
    let indim := out.shape.2
    match out.Y with
    | [] => (.error "RuntimeError: max of an empty tensor", ev)
    | y :: ys =>
      if (ys.foldl max y = 1 ∧ ys.foldl min y = 0) then
        let epochs := epochs_fn out.shape.1
        let parts := dl.split_data out 41
        match build_model m indim with
        | .error e => (.error e, ev)
        | .ok bm =>
          let pre := tr.test bm cuda parts.2.2
          let touts := tr.train_outputs bm cuda parts.1 parts.2.1
            (List.range epochs.toNat) disturber parts.2.2 debug
          (.ok ⟨m, (run : ℤ), ln, epochs, rm.cnt, out.ds_n, out.ds_tc,
              out.ds_tf, touts.1, pre, touts.2.1, touts.2.2⟩,
            ev ++ [Ev.buildCall m indim])
      else
        (.error "AssertionError: Expecting binary classifier", ev)

/-- `itertools.product(models, data_loaders, range(n_runs))`: model
outermost, loader middle, run innermost; `range` of a nonpositive count
is empty. -/
def combosOf (models : List String) (loader_names : List String)
    (n_runs : ℤ) : List (String × String × ℕ) :=
  models.flatMap fun m =>
    loader_names.flatMap fun ln =>
      (List.range n_runs.toNat).map fun r => (m, ln, r)

/-- The training loop: run every combination in order, accumulating into
the `emb_model_results` dictionary; any exception aborts the loop and
propagates (the bare `except:` in the source logs and re-raises). -/
def goCombos {Part D : Type} (tr : TrainerO Part D) (relpath : List Char)
    (rm : RelMeta) (data_loaders : List (String × DataLoader Part))
    (single_rel_types : List (List Char)) (epochs_fn : ℕ → ℤ)
    (disturber : Option D) (debug : Bool) (cuda : Bool) :
    List (String × String × ℕ) → List (String × List EmbRunResult) →
      Except String (List (String × List EmbRunResult)) × List Ev
  | [], acc => (.ok acc, [])
  | (m, ln, run) :: rest, acc =>
    match runCombo tr relpath rm data_loaders single_rel_types epochs_fn
        disturber debug cuda m ln run with
    | (.ok res, ev) =>
      let next := goCombos tr relpath rm data_loaders single_rel_types
        epochs_fn disturber debug cuda rest (upsertAppend acc ln res)
      (next.1, ev ++ next.2)
    | (.error e, ev) => (.error e, ev)

/-- `learn_rel` (source lines 107-215).  Arguments follow the source
signature; the trainer oracle stands for the external
`evalclass.ModelTrainer`.  Returns the result (or the propagated
exception) together with the observable event trace. -/
def learn_rel {Part D : Type} (tr : TrainerO Part D) (relpath : List Char)
    (rel_meta : RelMeta) (data_loaders : List (String × DataLoader Part))
    (single_rel_types : List (List Char)) (epochs_fn : ℕ → ℤ)
    (rel_filter : Option (RelMeta → Bool)) (models : List String)
    (n_runs : ℤ) (disturber : Option D) (debug : Bool) (cuda : Bool) :
    Except String LearnResult × List Ev :=
  let cnt := rel_meta.cnt
  if cnt < 75 then (.ok (empty_result rel_meta), [])
  else if (match rel_filter with
           | some f => !(f rel_meta)
           | none => false) then (.ok (empty_result rel_meta), [])
  else
    match goCombos tr relpath rel_meta data_loaders single_rel_types
        epochs_fn disturber debug cuda
        (combosOf models (data_loaders.map (fun p => p.1)) n_runs) [] with
    | (.ok acc, ev) =>
      (.ok ⟨String.mk rel_meta.name, String.mk rel_meta.type, some cnt, acc⟩,
        ev)
    | (.error e, ev) => (.error e, ev)

/-- The run result one successful loop iteration records, written as a
total function of the oracles (used to state the loop characterization;
`runCombo` equals `.ok` of this under the success hypotheses). -/
def mkRun {Part D : Type} (tr : TrainerO Part D) (relpath : List Char)
    (rm : RelMeta) (single_rel_types : List (List Char))
    (epochs_fn : ℕ → ℤ) (disturber : Option D) (debug : Bool) (cuda : Bool)
    (dl : DataLoader Part) (m ln : String) (run : ℕ) : EmbRunResult :=
  let out := loadFor dl rm single_rel_types relpath
  let indim := out.shape.2
  let epochs := epochs_fn out.shape.1
  let parts := dl.split_data out 41
  let bm := (build_model m indim).toOption.getD (.logisticRegression 0)
  let pre := tr.test bm cuda parts.2.2
  let touts := tr.train_outputs bm cuda parts.1 parts.2.1
    (List.range epochs.toNat) disturber parts.2.2 debug
  ⟨m, (run : ℤ), ln, epochs, rm.cnt, out.ds_n, out.ds_tc, out.ds_tf,
    touts.1, pre, touts.2.1, touts.2.2⟩

/-- Placeholder run used only for the impossible missing-loader case of
`mkRunL`. -/
def junkRun : EmbRunResult :=
  ⟨"", 0, "", 0, 0, 0, 0, 0, ⟨[], []⟩, [], ⟨[], []⟩, []⟩

/-- `mkRun`, resolving the loader by key as the loop body does. -/
def mkRunL {Part D : Type} (tr : TrainerO Part D) (relpath : List Char)
    (rm : RelMeta) (data_loaders : List (String × DataLoader Part))
    (single_rel_types : List (List Char)) (epochs_fn : ℕ → ℤ)
    (disturber : Option D) (debug : Bool) (cuda : Bool)
    (m ln : String) (run : ℕ) : EmbRunResult :=
  match lookupA data_loaders ln with
  | some dl => mkRun tr relpath rm single_rel_types epochs_fn disturber
      debug cuda dl m ln run
  | none => junkRun

/-! ## Result persistence

The filesystem is a list of `(path, content)` pairs in write order.
A file content is the parsed value it holds: `meta.json` always holds
the eight-key scalar dictionary written by `_store_embrun_result`
(`meta['pos_exs'] = int(meta['pos_exs'])` is the identity on an integer
value, so it is absorbed into the `ℤ` field), the `.tsv` files hold
tables, the two other `.json` files hold flat metric mappings. -/

/-- The eight scalar keys of `meta.json`, in the order the source lists
them: model, i, emb, epochs, pos_exs, dataset_size, dataset_tok_cnt,
dataset_tok_found. -/
structure MetaJson where
  model : String
  i : ℤ
  emb : String
  epochs : ℤ
  pos_exs : ℤ
  dataset_size : ℤ
  dataset_tok_cnt : ℤ
  dataset_tok_found : ℤ
deriving DecidableEq

/-- Content of one stored file. -/
inductive Content where
  | metaFile (m : MetaJson)
  | tsvFile (d : DF)
  | jsonFile (j : Metrics)
deriving DecidableEq

/-- A stored directory tree: files in write order. -/
abbrev FTree := List (List String × Content)

/-! ### Decimal formatting for `run_%02d` -/

/-- The decimal digit character for `n < 10`. -/
def digitChar (n : ℕ) : Char := Char.ofNat (48 + n)

/-- Decimal digits of `n`, most significant first (fuel-structural). -/
def natDigitsAux : ℕ → ℕ → List Char
  | 0, _ => []
  | fuel + 1, n =>
    if n < 10 then [digitChar n]
    else natDigitsAux fuel (n / 10) ++ [digitChar (n % 10)]

/-- Decimal digits of `n`, most significant first. -/
def natDigits (n : ℕ) : List Char := natDigitsAux (n + 1) n

/-- Decimal representation of an integer. -/
def intRepr (i : ℤ) : String :=
  if i < 0 then String.mk ('-' :: natDigits (-i).toNat)
  else String.mk (natDigits i.toNat)

/-- The run directory name `'run_%02d' % i`: zero-padded to two digits. -/
def run_dir_name (i : ℤ) : String :=
  "run_" ++ (if 0 ≤ i ∧ i < 10 then "0" ++ intRepr i else intRepr i)

/-- The meta dictionary `_store_embrun_result` writes: exactly the eight
scalar fields, with `pos_exs` passed through `int()` (the identity on an
integer). -/
def metaOf (r : EmbRunResult) : MetaJson :=
  ⟨r.model, r.i, r.emb, r.epochs, r.pos_exs, r.dataset_size,
    r.dataset_tok_cnt, r.dataset_tok_found⟩

/-- `_store_embrun_result(emb_dir, emb_result)`: writes the five files of
one run into `emb_dir/model/run_NN/`. -/
def store_embrun_result (emb_dir : List String) (r : EmbRunResult) :
    FTree :=
  let odir := emb_dir ++ [r.model, run_dir_name r.i]
  [(odir ++ ["meta.json"], .metaFile (metaOf r)),
   (odir ++ ["train.tsv"], .tsvFile r.trainer_df),
   (odir ++ ["test.tsv"], .tsvFile r.test_df),
   (odir ++ ["pretrain-test.json"], .jsonFile r.pretrain_test_result),
   (odir ++ ["randomvec-test.json"], .jsonFile r.test_random_result)]

/-- The five files of one run, relative to the run directory itself:
the local view of `store_embrun_result` (which writes exactly these
under `emb_dir/model/run_NN/`). -/
def runFiles (r : EmbRunResult) : FTree :=
  [(["meta.json"], .metaFile (metaOf r)),
   (["train.tsv"], .tsvFile r.trainer_df),
   (["test.tsv"], .tsvFile r.test_df),
   (["pretrain-test.json"], .jsonFile r.pretrain_test_result),
   (["randomvec-test.json"], .jsonFile r.test_random_result)]

/-- `store_learn_result(dir_path, learn_result)`: writes every run of
every embedding source under
`dir_path/rel_type/rel_name/emb/model/run_NN/` (the enumeration index of
the inner loop is unused in the source). -/
def store_learn_result (dir_path : List String) (lr : LearnResult) :
    FTree :=
  let rel_path := dir_path ++ [lr.rel_type, lr.rel_name]
  lr.emb_model_results.flatMap fun p =>
    p.2.flatMap fun er => store_embrun_result (rel_path ++ [p.1]) er

/-! ### Directory enumeration over the tree model -/

/-- Append a key if it was not seen yet (first-occurrence order). -/
def insertNew (ks : List String) (k : String) : List String :=
  if k ∈ ks then ks else ks ++ [k]

/-- First-occurrence deduplication. -/
def dedupFirst (l : List String) : List String := l.foldl insertNew []

/-- `[d for d in os.listdir(cur) if isdir(join(cur, d))]`: the immediate
subdirectory names, in first-write order. -/
def childDirs (entries : FTree) : List String :=
  dedupFirst (entries.filterMap fun e =>
    match e.1 with
    | x :: _ :: _ => some x
    | _ => none)

/-- Enter a subdirectory: keep the entries under `d`, stripping it. -/
def descend (entries : FTree) (d : String) : FTree :=
  entries.filterMap fun e =>
    match e.1 with
    | x :: rest => if x = d then some (rest, e.2) else none
    | [] => none

/-- Enter a nested directory path. -/
def descendPath (entries : FTree) : List String → FTree
  | [] => entries
  | d :: rest => descendPath (descend entries d) rest

/-- Open the file `name` in the current directory; a path written twice
yields the last write. -/
def fileAt (entries : FTree) (name : String) : Option Content :=
  ((entries.filter fun e => e.1 = [name]).getLast?).map (fun e => e.2)

/-- `_load_embrun_result(emb_dir)`: read the five files of a run
directory back into a run result; a missing file raises. -/
def load_embrun_result (entries : FTree) : Except String EmbRunResult :=
  match fileAt entries "meta.json", fileAt entries "train.tsv",
      fileAt entries "test.tsv", fileAt entries "pretrain-test.json",
      fileAt entries "randomvec-test.json" with
  | some (.metaFile m), some (.tsvFile tdf), some (.tsvFile sdf),
      some (.jsonFile pj), some (.jsonFile rj) =>
    .ok ⟨m.model, m.i, m.emb, m.epochs, m.pos_exs, m.dataset_size,
      m.dataset_tok_cnt, m.dataset_tok_found, tdf, pj, sdf, rj⟩
  | _, _, _, _, _ => .error "FileNotFoundError"

/-- Sequence a list of fallible reads, stopping at the first failure. -/
def traverseE {α : Type} : List (Except String α) → Except String (List α)
  | [] => .ok []
  | x :: rest =>
    match x with
    | .error e => .error e
    | .ok a =>
      match traverseE rest with
      | .error e => .error e
      | .ok l => .ok (a :: l)

/-- The run reads of one embedding directory, in enumeration order:
model subdirectories, then run subdirectories. -/
def embRunCells (emb_entries : FTree) : List (Except String EmbRunResult) :=
  (childDirs emb_entries).flatMap fun model =>
    (childDirs (descend emb_entries model)).map fun run =>
      load_embrun_result (descend (descend emb_entries model) run)

/-- All runs of one embedding directory (source lines 264-273, without
the `pos_exs` bookkeeping). -/
def loadEmbGroup (emb_entries : FTree) : Except String (List EmbRunResult) :=
  traverseE (embRunCells emb_entries)

/-- `if not pos_exs: pos_exs = v` — Python truthiness: both `None` and
`0` are replaced. -/
def posStep (p : Option ℤ) (v : ℤ) : Option ℤ :=
  match p with
  | some z => if z ≠ 0 then some z else some v
  | none => some v

/-- Fold over the embedding directories, collecting the per-embedding
run lists and threading the `pos_exs` accumulator through every run in
enumeration order (the source updates it inside the innermost loop; the
per-group fold composes to the same run-ordered fold). -/
def goEmbs (rel_entries : FTree) :
    List String → Option ℤ →
      Except String (List (String × List EmbRunResult) × Option ℤ)
  | [], pos => .ok ([], pos)
  | emb :: rest, pos =>
    match loadEmbGroup (descend rel_entries emb) with
    | .error e => .error e
    | .ok runs =>
      match goEmbs rel_entries rest
          (runs.foldl (fun p r => posStep p r.pos_exs) pos) with
      | .error e => .error e
      | .ok (assoc, pfin) => .ok ((emb, runs) :: assoc, pfin)

/-- `load_learn_result(dir_path, rel_type, rel_name)` over a stored tree.
`os.listdir` on a missing relation directory raises; in the tree model a
directory exists exactly when some file lies under it. -/
def load_learn_result (tree : FTree) (dir_path : List String)
    (rel_type rel_name : String) : Except String LearnResult :=
  let rel_entries := descendPath tree (dir_path ++ [rel_type, rel_name])
  if rel_entries = [] then .error "FileNotFoundError"
  else
    match goEmbs rel_entries (childDirs rel_entries) none with
    | .error e => .error e
    | .ok (assoc, pos) => .ok ⟨rel_name, rel_type, pos, assoc⟩

/-- The run reads of a whole relation directory in encounter order
(embedding, then model, then run); used to state what "the first run
encountered" means. -/
def encounterRuns (rel_entries : FTree) : List (Except String EmbRunResult) :=
  (childDirs rel_entries).flatMap fun emb =>
    embRunCells (descend rel_entries emb)

/-- The `pos_exs` value of the first run directory encountered when
loading `dir_path/rel_type/rel_name`, if it loads. -/
def firstRunPos (tree : FTree) (dir_path : List String)
    (rel_type rel_name : String) : Option ℤ :=
  match (encounterRuns (descendPath tree (dir_path ++ [rel_type, rel_name]))).head? with
  | some (.ok r) => some r.pos_exs
  | _ => none

/-! ## Relation metadata scanning (`load_rels_meta`) -/

/-- Parsing one filename (source lines 94-100):
`prefix_end = f.find('_')`, `rel_end = f.find('__')`,
`ext_start = f.find('.txt')`, then slicing, then `int` on the count
slice.  `str.find` returns `-1` when absent and the slices silently
wrap, so only the `int` conversion can fail. -/
def parse_rel_filename (f : List Char) : Except String RelMeta :=
  let prefix_end := pyFind f ['_']
  let rel_end := pyFind f ['_', '_']
  let ext_start := pyFind f ".txt".toList
  let rel_type := pySlice f 0 prefix_end
  let rel_name := pySlice f (prefix_end + 1) rel_end
  match pyInt (pySlice f (rel_end + 2) ext_start) with
  | .ok c => .ok ⟨rel_type, rel_name, c, f⟩
  | .error e => .error e

/-- The slice handed to `int(...)` when parsing filename `f`. -/
def countSlice (f : List Char) : List Char :=
  pySlice f (pyFind f ['_', '_'] + 2) (pyFind f ".txt".toList)

/-- `load_rels_meta` over the regular filenames of the directory (the
`os.listdir` + `isfile` enumeration is the input list; the resulting
records are the rows of the returned frame). -/
def load_rels_meta (files : List (List Char)) : Except String (List RelMeta) :=
  traverseE (files.map parse_rel_filename)

/-- The filename convention of the spec (section 4.2): `TYPE_NAME__COUNT.txt`
with `TYPE` the substring before the first underscore (hence underscore
free) and `COUNT` a nonempty digit string.  Stated from the spec wording,
for comparison with what the code accepts. -/
def specFilenameConvention (f : List Char) : Prop :=
  ∃ t n c : List Char,
    (∀ ch ∈ t, ch ≠ '_') ∧ c ≠ [] ∧ (∀ ch ∈ c, ch.isDigit) ∧
    f = t ++ ['_'] ++ n ++ ['_', '_'] ++ c ++ ".txt".toList

/-! ## Value table for the epoch heuristic -/

/-- The value of the heuristic as a function of `round(log10(n/2))`. -/
def valAt (r : ℕ) : ℤ :=
  if r ≤ 6 then 3 * 2 ^ (6 - r)
  else if r = 7 then 2
  else if r = 8 then 1
  else 0

/-! ## Concrete oracles for witnesses and counterexamples -/

/-- A loader returning a 4 by 2 feature tensor with binary labels. -/
def unitLoadOut : LoadOut := ⟨(4, 2), [0, 1, 0, 1], 4, 8, 7⟩

/-- A loader whose label tensor contains the non-binary value 1/2 while
still having maximum 1 and minimum 0. -/
def halfLoadOut : LoadOut := ⟨(3, 2), [0, 1/2, 1], 3, 6, 5⟩

/-- Concrete data loader for the well-behaved scenario. -/
def gloveLoader : DataLoader Unit :=
  ⟨fun _ => unitLoadOut, fun _ => unitLoadOut, fun _ => unitLoadOut,
   fun _ _ => ((), (), ())⟩

/-- Concrete data loader producing the non-binary label 1/2. -/
def halfLoader : DataLoader Unit :=
  ⟨fun _ => halfLoadOut, fun _ => halfLoadOut, fun _ => halfLoadOut,
   fun _ _ => ((), (), ())⟩

/-- Concrete trainer oracle with fixed outputs. -/
def testTrainer : TrainerO Unit Unit :=
  ⟨fun _ _ _ => [("acc", 1)],
   fun _ _ _ _ _ _ _ _ =>
     (⟨["epoch", "acc"], [[0, 1], [1, 1]]⟩,
      ⟨["pred", "label"], [[1, 1], [0, 0]]⟩,
      [("acc", 0)])⟩

/-- A pairwise relation with 100 positive examples. -/
def testMeta : RelMeta :=
  ⟨"noun".toList, "plural".toList, 100, "noun_plural__100.txt".toList⟩

/-- The scenario arguments of the end-to-end claim: one loader `glove`,
models `[logreg]`, two runs, constant epoch function. -/
def scenarioRun : Except String LearnResult × List Ev :=
  learn_rel testTrainer "rels".toList testMeta [("glove", gloveLoader)]
    [] (fun _ => 3) none ["logreg"] 2 none false false

/-- Same scenario with the model list duplicated (for the store/load
collision counterexample). -/
def dupRun : Except String LearnResult × List Ev :=
  learn_rel testTrainer "rels".toList testMeta [("glove", gloveLoader)]
    [] (fun _ => 3) none ["logreg", "logreg"] 1 none false false

/-- Scenario rejected by the filter: an empty result with 100 positive
examples. -/
def filteredRun : Except String LearnResult × List Ev :=
  learn_rel testTrainer "rels".toList testMeta [("glove", gloveLoader)]
    [] (fun _ => 3) (some (fun _ => false)) ["logreg"] 2 none false false

/-- Two concrete stored runs whose `meta.json` carry `pos_exs = 0` and
`pos_exs = 5`, for the loader truthiness counterexample. -/
def runPos0 : EmbRunResult :=
  ⟨"logreg", 0, "emb1", 3, 0, 4, 8, 7, ⟨["a"], [[1]]⟩, [("acc", 1)],
    ⟨["b"], [[2]]⟩, [("acc", 0)]⟩

/-- Second stored run, `pos_exs = 5`. -/
def runPos5 : EmbRunResult :=
  ⟨"logreg", 1, "emb1", 3, 5, 4, 8, 7, ⟨["a"], [[1]]⟩, [("acc", 1)],
    ⟨["b"], [[2]]⟩, [("acc", 0)]⟩

/-- A stored relation whose first run carries `pos_exs = 0`. -/
def posTree : FTree :=
  store_learn_result [] ⟨"rel1", "t1", some 0, [("emb1", [runPos0, runPos5])]⟩

/-- Decidable equality for `Except` results. -/
instance {ε α : Type} [DecidableEq ε] [DecidableEq α] :
    DecidableEq (Except ε α)
  | .ok a, .ok b =>
    if h : a = b then .isTrue (by rw [h])
    else .isFalse (fun hc => by cases hc; exact h rfl)
  | .ok _, .error _ => .isFalse (fun hc => by cases hc)
  | .error _, .ok _ => .isFalse (fun hc => by cases hc)
  | .error e, .error e2 =>
    if h : e = e2 then .isTrue (by rw [h])
    else .isFalse (fun hc => by cases hc; exact h rfl)

/-- The training curve the concrete trainer reports. -/
def scenarioDF1 : DF := ⟨["epoch", "acc"], [[0, 1], [1, 1]]⟩

/-- The per-example test table the concrete trainer reports. -/
def scenarioDF2 : DF := ⟨["pred", "label"], [[1, 1], [0, 0]]⟩

/-- The run result recorded for run `i` of the end-to-end scenario. -/
def scenarioEntry (i : ℤ) : EmbRunResult :=
  ⟨"logreg", i, "glove", 3, 100, 4, 8, 7, scenarioDF1, [("acc", 1)],
    scenarioDF2, [("acc", 0)]⟩

/-- The full result of the end-to-end scenario. -/
def scenarioResult : LearnResult :=
  ⟨"plural", "noun", some 100, [("glove", [scenarioEntry 0, scenarioEntry 1])]⟩

/-- The result of the duplicated-models scenario: the same (model, run)
pair recorded twice under one key. -/
def dupResult : LearnResult :=
  ⟨"plural", "noun", some 100, [("glove", [scenarioEntry 0, scenarioEntry 0])]⟩

/-! # Theorems -/

/-! ## The epoch heuristic (claim C3) -/

/-- `orderSearch` finds the least satisfying index at or above its start,
provided one exists within the fuel. -/
theorem orderSearch_spec (n : ℕ) :
    ∀ (fuel k : ℕ),
      (∃ j, k ≤ j ∧ j < k + fuel ∧ 10 * n ^ 2 < 4 * 10 ^ (2 * j + 2)) →
      10 * n ^ 2 < 4 * 10 ^ (2 * orderSearch n fuel k + 2) ∧
      ∀ i, k ≤ i → i < orderSearch n fuel k →
        ¬ 10 * n ^ 2 < 4 * 10 ^ (2 * i + 2) := by
  intro fuel
  induction fuel with
  | zero =>
    intro k h
    obtain ⟨j, h1, h2, _⟩ := h
    omega
  | succ fuel ih =>
    intro k h
    obtain ⟨j, hkj, hlt, hcond⟩ := h
    by_cases hk : 10 * n ^ 2 < 4 * 10 ^ (2 * k + 2)
    · simp only [orderSearch, if_pos hk]
      exact ⟨hk, fun i h1 h2 => by omega⟩
    · simp only [orderSearch, if_neg hk]
      have hkj2 : k + 1 ≤ j := by
        rcases Nat.eq_or_lt_of_le hkj with heq | hlt2
        · exact absurd (heq ▸ hcond) hk
        · omega
      have hrec := ih (k + 1) ⟨j, hkj2, by omega, hcond⟩
      refine ⟨hrec.1, fun i h1 h2 => ?_⟩
      rcases Nat.eq_or_lt_of_le h1 with heq | hlt2
      · exact heq ▸ hk
      · exact hrec.2 i hlt2 h2

/-- Every `n` satisfies the search condition at index `n` itself. -/
theorem cond_self (n : ℕ) : 10 * n ^ 2 < 4 * 10 ^ (2 * n + 2) := by
  have h1 : n < 10 ^ n := Nat.lt_pow_self (by norm_num) n
  have h2 : n ^ 2 < (10 ^ n) ^ 2 := Nat.pow_lt_pow_left h1 (by norm_num)
  have h3 : (10 ^ n) ^ 2 = 10 ^ (2 * n) := by
    rw [← pow_mul, Nat.mul_comm]
  have h4 : (10:ℕ) ^ (2 * n + 2) = 10 ^ (2 * n) * 100 := by
    rw [pow_add]; norm_num
  rw [h3] at h2
  rw [h4]
  omega

/-- The defining property of `rndLog10Half`: least `k` with
`10 n^2 < 4 * 10^(2k+2)`. -/
theorem rnd_spec (n : ℕ) :
    10 * n ^ 2 < 4 * 10 ^ (2 * rndLog10Half n + 2) ∧
    ∀ i, i < rndLog10Half n → ¬ 10 * n ^ 2 < 4 * 10 ^ (2 * i + 2) := by
  have h := orderSearch_spec n (n + 1) 0 ⟨n, by omega, by omega, cond_self n⟩
  exact ⟨h.1, fun i hi => h.2 i (by omega) hi⟩

/-- Uniqueness of the least satisfying index. -/
theorem rnd_eq_of (n j : ℕ) (h1 : 10 * n ^ 2 < 4 * 10 ^ (2 * j + 2))
    (h2 : ∀ i, i < j → ¬ 10 * n ^ 2 < 4 * 10 ^ (2 * i + 2)) :
    rndLog10Half n = j := by
  rcases lt_trichotomy (rndLog10Half n) j with h | h | h
  · exact absurd (rnd_spec n).1 (h2 _ h)
  · exact h
  · exact absurd h1 ((rnd_spec n).2 _ h)

/-- The least index is below any satisfying index. -/
theorem rnd_le_of_cond (n k : ℕ) (h : 10 * n ^ 2 < 4 * 10 ^ (2 * k + 2)) :
    rndLog10Half n ≤ k := by
  by_contra hlt
  push_neg at hlt
  exact (rnd_spec n).2 k hlt h

/-- Growing the training-set size by one decade increments
`round(log10(n/2))` by exactly one. -/
theorem rnd_ten (n : ℕ) (hn : 0 < n) :
    rndLog10Half (10 * n) = rndLog10Half n + 1 := by
  have hiff : ∀ k, (10 * (10 * n) ^ 2 < 4 * 10 ^ (2 * (k + 1) + 2)) ↔
      (10 * n ^ 2 < 4 * 10 ^ (2 * k + 2)) := by
    intro k
    have e1 : 10 * (10 * n) ^ 2 = 100 * (10 * n ^ 2) := by ring
    have e2 : (4:ℕ) * 10 ^ (2 * (k + 1) + 2) = 100 * (4 * 10 ^ (2 * k + 2)) := by
      rw [show 2 * (k + 1) + 2 = (2 * k + 2) + 2 by ring, pow_add]
      ring
    rw [e1, e2]
    omega
  apply rnd_eq_of
  · exact (hiff _).mpr (rnd_spec n).1
  · intro i hi
    match i with
    | 0 =>
      intro hc
      have h2 : 10 * (10 * n) ^ 2 = 1000 * n ^ 2 := by ring
      rw [h2] at hc
      norm_num at hc
      have h1 : 0 < n ^ 2 := by positivity
      omega
    | i + 1 =>
      intro hc
      exact (rnd_spec n).2 i (by omega) ((hiff i).mp hc)

/-- `pyRound` of an integer is that integer. -/
theorem pyRound_intCast (z : ℤ) : pyRound (z : ℚ) = z := by
  unfold pyRound
  rw [Int.floor_intCast]
  norm_num

/-- `pyRound` of a small nonnegative value is zero. -/
theorem pyRound_zero_of (q : ℚ) (h0 : 0 ≤ q) (h1 : q < 1 / 2) :
    pyRound q = 0 := by
  have hf : ⌊q⌋ = 0 := by
    rw [Int.floor_eq_zero_iff]
    exact Set.mem_Ico.mpr ⟨h0, by linarith⟩
  unfold pyRound
  rw [hf]
  rw [if_pos (by push_cast; linarith)]

/-- Unfolding of the heuristic in terms of `rndLog10Half`. -/
theorem epochs_def (n : ℕ) : epochs_from_trainset_size n =
    pyRound ((2:ℚ) ^ ((5 : ℤ) - ((rndLog10Half n : ℤ) - 1)) * 3) := rfl

/-- The heuristic value as a function of `round(log10(n/2))`. -/
theorem epochs_eq (n : ℕ) :
    epochs_from_trainset_size n = valAt (rndLog10Half n) := by
  rw [epochs_def]
  unfold valAt
  by_cases h6 : rndLog10Half n ≤ 6
  · rw [if_pos h6]
    have he : (5 : ℤ) - ((rndLog10Half n : ℤ) - 1) =
        ((6 - rndLog10Half n : ℕ) : ℤ) := by omega
    rw [he, zpow_natCast]
    have hc : ((2:ℚ) ^ (6 - rndLog10Half n)) * 3 =
        ((3 * 2 ^ (6 - rndLog10Half n) : ℤ) : ℚ) := by
      push_cast
      ring
    rw [hc, pyRound_intCast]
  · rw [if_neg h6]
    push_neg at h6
    by_cases h7 : rndLog10Half n = 7
    · rw [if_pos h7]
      have he : (5 : ℤ) - ((rndLog10Half n : ℤ) - 1) = -1 := by
        rw [h7]; norm_num
      rw [he, show ((2:ℚ) ^ (-1 : ℤ)) * 3 = 3 / 2 by norm_num]
      norm_num [pyRound]
    · rw [if_neg h7]
      by_cases h8 : rndLog10Half n = 8
      · rw [if_pos h8]
        have he : (5 : ℤ) - ((rndLog10Half n : ℤ) - 1) = -2 := by
          rw [h8]; norm_num
        rw [he, show ((2:ℚ) ^ (-2 : ℤ)) * 3 = 3 / 4 by norm_num]
        norm_num [pyRound]
      · rw [if_neg h8]
        have h9 : 9 ≤ rndLog10Half n := by omega
        have hm : (5 : ℤ) - ((rndLog10Half n : ℤ) - 1) ≤ -3 := by omega
        have hle : (2:ℚ) ^ ((5 : ℤ) - ((rndLog10Half n : ℤ) - 1)) ≤
            (2:ℚ) ^ (-3 : ℤ) := zpow_le_zpow_right₀ (by norm_num) hm
        have hpos : (0:ℚ) < 2 ^ ((5 : ℤ) - ((rndLog10Half n : ℤ) - 1)) := by
          positivity
        apply pyRound_zero_of
        · positivity
        · have h38 : ((2:ℚ) ^ (-3 : ℤ)) = 1 / 8 := by norm_num
          rw [h38] at hle
          linarith

/-- The value table is nonincreasing. -/
theorem valAt_antitone (r : ℕ) : valAt (r + 1) ≤ valAt r := by
  rcases le_or_lt r 8 with h | h
  · interval_cases r <;> decide
  · have h1 : valAt r = 0 := by
      unfold valAt
      rw [if_neg (by omega), if_neg (by omega), if_neg (by omega)]
    have h2 : valAt (r + 1) = 0 := by
      unfold valAt
      rw [if_neg (by omega), if_neg (by omega), if_neg (by omega)]
    omega

/-- The value table is positive up to index 8. -/
theorem valAt_pos (r : ℕ) (h : r ≤ 8) : 0 < valAt r := by
  interval_cases r <;> decide

/-- Claim C3, counterexample: the claim asserts the heuristic returns a
positive integer for every `trainset_size > 0`, but at
`n = 2 * 10 ^ 9` (where `round(log10(n/2)) = 9`, so the factor is
`2 ^ (-3)` and `round(0.375) = 0`) it returns `0`. -/
theorem C3_counterexample : epochs_from_trainset_size 2000000000 = 0 := by
  have h9 : rndLog10Half 2000000000 = 9 := by
    apply rnd_eq_of
    · norm_num
    · intro i hi
      have hmono : (4:ℕ) * 10 ^ (2 * i + 2) ≤ 4 * 10 ^ (2 * 8 + 2) := by
        have : (10:ℕ) ^ (2 * i + 2) ≤ 10 ^ (2 * 8 + 2) :=
          Nat.pow_le_pow_right (by norm_num) (by omega)
        omega
      norm_num at hmono ⊢
      omega
  rw [epochs_eq, h9]
  decide

/-- Claim C3 (amended): the epoch heuristic
`round(2 ^ (5 - round(log10(n/2) - 1)) * 3)` is nonincreasing when the
training-set size grows by one order of magnitude, and it returns a
positive integer for `0 < n ≤ 632455532` (that is, while
`round(log10(n/2)) ≤ 8`); beyond that bound it returns `0`, refuting the
unconditional positivity (see `C3_counterexample`). -/
theorem C3_epochs_heuristic :
    (∀ n : ℕ, 0 < n →
      epochs_from_trainset_size (10 * n) ≤ epochs_from_trainset_size n) ∧
    (∀ n : ℕ, 0 < n → n ≤ 632455532 → 0 < epochs_from_trainset_size n) := by
  constructor
  · intro n hn
    rw [epochs_eq, epochs_eq, rnd_ten n hn]
    exact valAt_antitone _
  · intro n hn hub
    rw [epochs_eq]
    apply valAt_pos
    apply rnd_le_of_cond
    have h1 : n ^ 2 ≤ 632455532 ^ 2 := Nat.pow_le_pow_left hub 2
    norm_num at h1 ⊢
    omega

/-- Witness for `C3_epochs_heuristic` at `n = 3`. -/
theorem C3_witness :
    epochs_from_trainset_size (10 * 3) ≤ epochs_from_trainset_size 3 ∧
    0 < epochs_from_trainset_size 3 :=
  ⟨C3_epochs_heuristic.1 3 (by norm_num),
   C3_epochs_heuristic.2 3 (by norm_num) (by norm_num)⟩

/-! ## The model factory (claim C9) -/

/-- Claim C9: `_build_model` fails with an explicit error for every name
outside the six recognized ones, and for `nn2`/`nn3` with an input
dimension other than 300 or 600; it never silently defaults. -/
theorem C9_build_model_errors :
    (∀ (name : String) (indim : ℕ),
      name ∉ ["logreg", "nn1", "nn2", "nn3", "alwaysT", "alwaysF"] →
      ∃ e, build_model name indim = .error e) ∧
    (∀ indim : ℕ, indim ≠ 300 → indim ≠ 600 →
      (∃ e, build_model "nn2" indim = .error e) ∧
      (∃ e, build_model "nn3" indim = .error e)) := by
  constructor
  · intro name indim hname
    simp only [List.mem_cons, List.not_mem_nil, or_false, not_or] at hname
    obtain ⟨h1, h2, h3, h4, h5, h6⟩ := hname
    unfold build_model
    rw [if_neg h1, if_neg h2, if_neg h3, if_neg h4, if_neg h5, if_neg h6]
    exact ⟨_, rfl⟩
  · intro indim h3 h6
    constructor
    · unfold build_model
      rw [if_neg (by decide), if_neg (by decide), if_pos rfl,
        if_neg h6, if_neg h3]
      exact ⟨_, rfl⟩
    · unfold build_model
      rw [if_neg (by decide), if_neg (by decide), if_neg (by decide),
        if_pos rfl, if_neg h6, if_neg h3]
      exact ⟨_, rfl⟩

/-- Witness for `C9_build_model_errors`: the unknown name `svm` and the
unsupported dimension 100. -/
theorem C9_witness :
    (∃ e, build_model "svm" 600 = .error e) ∧
    (∃ e, build_model "nn2" 100 = .error e) ∧
    (∃ e, build_model "nn3" 100 = .error e) :=
  ⟨C9_build_model_errors.1 "svm" 600 (by decide),
   (C9_build_model_errors.2 100 (by decide) (by decide)).1,
   (C9_build_model_errors.2 100 (by decide) (by decide)).2⟩

/-! ## Relation metadata scanning (claim C6) -/

/-- `traverseE` fails exactly when some element is a failure. -/
theorem traverseE_error_iff {α : Type} (l : List (Except String α)) :
    (∃ e, traverseE l = .error e) ↔ ∃ x ∈ l, ∃ e, x = .error e := by
  induction l with
  | nil => simp [traverseE]
  | cons x rest ih =>
    cases x with
    | error e => simp [traverseE]
    | ok a =>
      cases h : traverseE rest with
      | error e =>
        simp only [traverseE, h]
        simp only [List.mem_cons]
        constructor
        · intro _
          obtain ⟨x, hx, he⟩ := ih.mp ⟨e, h⟩
          exact ⟨x, Or.inr hx, he⟩
        · intro _
          exact ⟨e, rfl⟩
      | ok ms =>
        simp only [traverseE, h]
        simp only [List.mem_cons]
        constructor
        · rintro ⟨e, he⟩
          cases he
        · rintro ⟨x, hx | hx, e, he⟩
          · rw [he] at hx
            cases hx
          · exact absurd (ih.mpr ⟨x, hx, e, he⟩) (by simp [h])

/-- A successful `traverseE` yields one element per input. -/
theorem traverseE_ok_length {α : Type} (l : List (Except String α))
    (ms : List α) (h : traverseE l = .ok ms) : ms.length = l.length := by
  induction l generalizing ms with
  | nil =>
    simp only [traverseE] at h
    cases h
    rfl
  | cons x rest ih =>
    cases x with
    | error e => simp [traverseE] at h
    | ok a =>
      simp only [traverseE] at h
      cases h2 : traverseE rest with
      | error e => rw [h2] at h; cases h
      | ok ms2 =>
        rw [h2] at h
        cases h
        simp [ih ms2 h2]

/-- `parse_rel_filename` as a case split on the count slice. -/
theorem parse_rel_filename_eq (f : List Char) :
    parse_rel_filename f =
      match pyInt (countSlice f) with
      | .ok c => .ok ⟨pySlice f 0 (pyFind f ['_']),
          pySlice f (pyFind f ['_'] + 1) (pyFind f ['_', '_']), c, f⟩
      | .error e => .error e := rfl

/-- Parsing one filename fails exactly when the count slice is not a
valid integer literal. -/
theorem parse_error_iff (f : List Char) :
    (∃ e, parse_rel_filename f = .error e) ↔
    ∃ e, pyInt (countSlice f) = .error e := by
  rw [parse_rel_filename_eq]
  cases h : pyInt (countSlice f) with
  | ok c => simp
  | error e => simp

/-- Claim C6, counterexample: the filename `x12.txt` does not match the
convention `TYPE_NAME__COUNT.txt` (it contains no underscore at all),
yet `load_rels_meta` does not fail: `str.find` returns `-1`, the
negative slice indices silently wrap, and the record
`(type = name = "x12.tx", cnt = 12)` is produced. -/
theorem C6_counterexample :
    load_rels_meta ["x12.txt".toList] =
      .ok [⟨"x12.tx".toList, "x12.tx".toList, 12, "x12.txt".toList⟩] ∧
    ¬ specFilenameConvention "x12.txt".toList := by
  constructor
  · decide
  · rintro ⟨t, n, c, _, _, _, heq⟩
    have hu : '_' ∈ "x12.txt".toList := by
      rw [heq]
      simp [List.mem_append]
    exact absurd hu (by decide)

/-- Claim C6 (amended): `load_rels_meta` fails exactly when the count
slice (between the first `__` and `.txt`) of some filename is not a
valid integer literal, and on success it yields one record per file;
a malformed filename whose count slice happens to parse is silently
given a (possibly wrong) record — see `C6_counterexample`. -/
theorem C6_malformed_filenames :
    (∀ files : List (List Char),
      (∃ e, load_rels_meta files = .error e) ↔
      ∃ f ∈ files, ∃ e, pyInt (countSlice f) = .error e) ∧
    (∀ (files : List (List Char)) (ms : List RelMeta),
      load_rels_meta files = .ok ms → ms.length = files.length) := by
  constructor
  · intro files
    unfold load_rels_meta
    rw [traverseE_error_iff]
    constructor
    · rintro ⟨x, hx, e, he⟩
      rw [List.mem_map] at hx
      obtain ⟨f, hf, rfl⟩ := hx
      exact ⟨f, hf, (parse_error_iff f).mp ⟨e, he⟩⟩
    · rintro ⟨f, hf, he⟩
      obtain ⟨e, hpe⟩ := (parse_error_iff f).mpr he
      exact ⟨parse_rel_filename f, List.mem_map_of_mem _ hf, e, hpe⟩
  · intro files ms h
    have := traverseE_ok_length _ _ h
    simpa using this

/-- Witness for `C6_malformed_filenames`: a bad count slice fails, and
the well-formed `noun_plural__120.txt` yields exactly one record. -/
theorem C6_witness :
    (∃ e, load_rels_meta ["a_b__x.txt".toList] = .error e) ∧
    ([(⟨"noun".toList, "plural".toList, 120,
        "noun_plural__120.txt".toList⟩ : RelMeta)].length = 1) :=
  ⟨(C6_malformed_filenames.1 _).mpr
      ⟨"a_b__x.txt".toList, by decide,
        "ValueError: invalid literal for int", by decide⟩,
   C6_malformed_filenames.2 ["noun_plural__120.txt".toList] _ (by decide)⟩

/-! ## Short-circuit and empty-product behavior (claims C2 and C10) -/

/-- Claim C2: a relation with fewer than 75 positive examples, or one
rejected by the filter predicate, yields the empty result echoing name,
type and count, with an empty event trace: no data loader is invoked
and no model is built. -/
theorem C2_short_circuit {Part D : Type} (tr : TrainerO Part D)
    (relpath : List Char) (rel_meta : RelMeta)
    (data_loaders : List (String × DataLoader Part))
    (single_rel_types : List (List Char)) (epochs_fn : ℕ → ℤ)
    (rel_filter : Option (RelMeta → Bool)) (models : List String)
    (n_runs : ℤ) (disturber : Option D) (debug : Bool) (cuda : Bool)
    (h : rel_meta.cnt < 75 ∨
      ∃ f, rel_filter = some f ∧ f rel_meta = false) :
    learn_rel tr relpath rel_meta data_loaders single_rel_types epochs_fn
        rel_filter models n_runs disturber debug cuda =
      (.ok (empty_result rel_meta), []) := by
  unfold learn_rel
  by_cases hc : rel_meta.cnt < 75
  · rw [if_pos hc]
  · rw [if_neg hc]
    rcases h with h | ⟨f, rfl, hf⟩
    · exact absurd h hc
    · rw [if_pos (by simp [hf])]

/-- Witness for `C2_short_circuit`: the scenario relation rejected by a
constant-false filter. -/
theorem C2_witness :
    learn_rel testTrainer "rels".toList testMeta [("glove", gloveLoader)]
        [] (fun _ => 3) (some (fun _ => false)) ["logreg"] 2 none false
        false = (.ok (empty_result testMeta), []) :=
  C2_short_circuit _ _ _ _ _ _ _ _ _ _ _ _
    (Or.inr ⟨fun _ => false, rfl, rfl⟩)

/-- Claim C10: when the count and filter checks pass but the nested
combination product is empty (no models, no loaders, or a nonpositive
run count), `learn_rel` returns the well-formed empty-mapping result
without invoking a loader or building a model. -/
theorem C10_empty_product {Part D : Type} (tr : TrainerO Part D)
    (relpath : List Char) (rel_meta : RelMeta)
    (data_loaders : List (String × DataLoader Part))
    (single_rel_types : List (List Char)) (epochs_fn : ℕ → ℤ)
    (rel_filter : Option (RelMeta → Bool)) (models : List String)
    (n_runs : ℤ) (disturber : Option D) (debug : Bool) (cuda : Bool)
    (hcnt : ¬ rel_meta.cnt < 75)
    (hfilter : ∀ f, rel_filter = some f → f rel_meta = true)
    (hempty : models = [] ∨ data_loaders = [] ∨ n_runs ≤ 0) :
    learn_rel tr relpath rel_meta data_loaders single_rel_types epochs_fn
        rel_filter models n_runs disturber debug cuda =
      (.ok (empty_result rel_meta), []) := by
  have hcombos :
      combosOf models (data_loaders.map (fun p => p.1)) n_runs = [] := by
    rcases hempty with rfl | rfl | hn
    · simp [combosOf]
    · simp [combosOf]
    · simp [combosOf, Int.toNat_of_nonpos hn]
  cases hr : rel_filter with
  | none =>
    unfold learn_rel
    rw [if_neg hcnt]
    rw [if_neg (by simp)]
    rw [hcombos]
    rfl
  | some f =>
    unfold learn_rel
    rw [if_neg hcnt]
    rw [if_neg (by simp [hr, hfilter f hr])]
    rw [hcombos]
    rfl

/-- Witness for `C10_empty_product`: the scenario relation with an empty
model list. -/
theorem C10_witness :
    learn_rel testTrainer "rels".toList testMeta [("glove", gloveLoader)]
        [] (fun _ => 3) none [] 2 none false false =
      (.ok (empty_result testMeta), []) :=
  C10_empty_product _ _ _ _ _ _ _ _ _ _ _ _ (by decide)
    (fun _ h => nomatch h) (Or.inl rfl)

/-! ## Label validation (claim C4) -/

/-- Claim C4 (amended): in any loop iteration, if the loaded label
tensor has maximum not exactly 1 or minimum not exactly 0 (the assert at
source line 172), the iteration fails before any model is constructed.
The claim as stated — failing whenever the tensor merely *contains* a
value other than 0 or 1 — is refuted by `C4_counterexample`: a tensor
containing 1/2 with extremes 0 and 1 passes the check. -/
theorem C4_label_validation {Part D : Type} (tr : TrainerO Part D)
    (relpath : List Char) (rm : RelMeta)
    (data_loaders : List (String × DataLoader Part))
    (single_rel_types : List (List Char)) (epochs_fn : ℕ → ℤ)
    (disturber : Option D) (debug : Bool) (cuda : Bool)
    (m ln : String) (run : ℕ) (dl : DataLoader Part)
    (hdl : lookupA data_loaders ln = some dl) (y : ℚ) (ys : List ℚ)
    (hY : (loadFor dl rm single_rel_types relpath).Y = y :: ys)
    (hbad : ¬ (ys.foldl max y = 1 ∧ ys.foldl min y = 0)) :
    (∃ e, (runCombo tr relpath rm data_loaders single_rel_types epochs_fn
        disturber debug cuda m ln run).1 = .error e) ∧
    ∀ (name : String) (indim : ℕ),
      Ev.buildCall name indim ∉
        (runCombo tr relpath rm data_loaders single_rel_types epochs_fn
          disturber debug cuda m ln run).2 := by
  unfold runCombo
  rw [hdl]
  simp only [hY]
  rw [if_neg hbad]
  exact ⟨⟨_, rfl⟩, fun name indim h => by simp at h⟩

/-- Claim C4, counterexample: a label tensor containing the non-binary
value 1/2 (with maximum 1 and minimum 0) passes the validation; the run
succeeds and a model is constructed, so no validation failure is raised
for a tensor that merely contains a value other than 0 and 1. -/
theorem C4_counterexample :
    ((1:ℚ)/2 ∈ (loadFor halfLoader testMeta [] "rels".toList).Y ∧
      (1:ℚ)/2 ≠ 0 ∧ (1:ℚ)/2 ≠ 1) ∧
    (runCombo testTrainer "rels".toList testMeta [("glove", halfLoader)]
        [] (fun _ => 3) none false false "logreg" "glove" 0).1 =
      .ok ⟨"logreg", 0, "glove", 3, 100, 3, 6, 5, scenarioDF1,
        [("acc", 1)], scenarioDF2, [("acc", 0)]⟩ ∧
    Ev.buildCall "logreg" 2 ∈
      (runCombo testTrainer "rels".toList testMeta [("glove", halfLoader)]
        [] (fun _ => 3) none false false "logreg" "glove" 0).2 := by
  refine ⟨⟨?_, by norm_num, by norm_num⟩, ?_, ?_⟩
  · show (1:ℚ)/2 ∈ [0, 1/2, 1]
    simp
  · with_unfolding_all decide
  · with_unfolding_all decide

/-- Witness for `C4_label_validation`: a loader returning the all-2
label tensor fails before any model construction. -/
theorem C4_witness :
    (∃ e, (runCombo testTrainer "rels".toList testMeta
        [("two", ⟨fun _ => ⟨(2, 2), [2, 2], 2, 2, 2⟩,
          fun _ => ⟨(2, 2), [2, 2], 2, 2, 2⟩,
          fun _ => ⟨(2, 2), [2, 2], 2, 2, 2⟩,
          fun _ _ => ((), (), ())⟩)]
        [] (fun _ => 3) none false false "logreg" "two" 0).1 = .error e) ∧
    ∀ (name : String) (indim : ℕ),
      Ev.buildCall name indim ∉
        (runCombo testTrainer "rels".toList testMeta
          [("two", ⟨fun _ => ⟨(2, 2), [2, 2], 2, 2, 2⟩,
            fun _ => ⟨(2, 2), [2, 2], 2, 2, 2⟩,
            fun _ => ⟨(2, 2), [2, 2], 2, 2, 2⟩,
            fun _ _ => ((), (), ())⟩)]
          [] (fun _ => 3) none false false "logreg" "two" 0).2 :=
  C4_label_validation _ _ _ _ _ _ _ _ _ _ _ _ _ rfl 2 [2] rfl
    (by with_unfolding_all decide)

/-! ## Association-list lemmas for the accumulation dictionary -/

/-- Lookup on a cons cell. -/
theorem lookupA_cons {β : Type} (k0 : String) (v : β)
    (rest : List (String × β)) (k : String) :
    lookupA ((k0, v) :: rest) k =
      if k0 = k then some v else lookupA rest k := by
  by_cases h : k0 = k <;> simp [lookupA, List.find?, h]

/-- Lookup misses exactly the absent keys. -/
theorem lookupA_eq_none {β : Type} (l : List (String × β)) (k : String) :
    lookupA l k = none ↔ k ∉ l.map (fun p => p.1) := by
  induction l with
  | nil => simp [lookupA]
  | cons p rest ih =>
    obtain ⟨k0, v⟩ := p
    rw [lookupA_cons]
    by_cases h : k0 = k
    · simp [h]
    · simp [h, ih, Ne.symm h]

/-- A present key has a value that is a member. -/
theorem lookupA_mem {β : Type} (l : List (String × β)) (k : String)
    (h : k ∈ l.map (fun p => p.1)) :
    ∃ v, lookupA l k = some v ∧ (k, v) ∈ l := by
  induction l with
  | nil => simp at h
  | cons p rest ih =>
    obtain ⟨k0, v0⟩ := p
    rw [lookupA_cons]
    by_cases hk : k0 = k
    · subst hk
      exact ⟨v0, by simp, by simp⟩
    · simp only [List.map_cons, List.mem_cons] at h
      rcases h with h | h
      · exact absurd h.symm hk
      · obtain ⟨v, hv, hm⟩ := ih h
        exact ⟨v, by simp [hk, hv], by simp [hm]⟩

/-- Lookup over a mapped key list returns the mapped value. -/
theorem lookupA_map_self {β : Type} (G : String → β) :
    ∀ (K : List String) (k : String), k ∈ K →
      lookupA (K.map fun ln => (ln, G ln)) k = some (G k) := by
  intro K
  induction K with
  | nil => intro k h; simp at h
  | cons k0 K2 ih =>
    intro k h
    simp only [List.map_cons]
    rw [lookupA_cons]
    by_cases hk : k0 = k
    · subst hk; simp
    · rcases List.mem_cons.mp h with h | h
      · exact absurd h.symm hk
      · simp [hk, ih k h]

/-- Two association lists with equal duplicate-free key sequences and
equal lookups are equal. -/
theorem assoc_ext {β : Type} :
    ∀ (a b : List (String × β)),
      a.map (fun p => p.1) = b.map (fun p => p.1) →
      (a.map (fun p => p.1)).Nodup →
      (∀ k, lookupA a k = lookupA b k) → a = b := by
  intro a
  induction a with
  | nil =>
    intro b hmap _ _
    simp only [List.map_nil] at hmap
    exact (List.map_eq_nil_iff.mp hmap.symm).symm
  | cons p a2 ih =>
    intro b hmap hnd hlk
    obtain ⟨k, v⟩ := p
    cases b with
    | nil => simp at hmap
    | cons q b2 =>
      obtain ⟨k2, v2⟩ := q
      simp only [List.map_cons, List.cons.injEq] at hmap
      obtain ⟨hk, htl⟩ := hmap
      subst hk
      have hv : v = v2 := by
        have := hlk k
        rw [lookupA_cons, lookupA_cons, if_pos rfl, if_pos rfl] at this
        exact Option.some.inj this
      subst hv
      have hnotin : k ∉ a2.map (fun p => p.1) := by
        simp only [List.map_cons, List.nodup_cons] at hnd
        exact hnd.1
      have htail : ∀ k3, lookupA a2 k3 = lookupA b2 k3 := by
        intro k3
        by_cases hk3 : k = k3
        · subst hk3
          rw [(lookupA_eq_none a2 k).mpr hnotin,
            (lookupA_eq_none b2 k).mpr (htl ▸ hnotin)]
        · have := hlk k3
          rw [lookupA_cons, lookupA_cons, if_neg hk3, if_neg hk3] at this
          exact this
      have hnd2 : (a2.map (fun p => p.1)).Nodup := by
        simp only [List.map_cons, List.nodup_cons] at hnd
        exact hnd.2
      rw [ih b2 htl hnd2 htail]

/-- The key sequence after an upsert: unchanged for a present key, the
new key appended otherwise. -/
theorem upsertAppend_keys {β : Type} :
    ∀ (acc : List (String × List β)) (k : String) (v : β),
      (upsertAppend acc k v).map (fun p => p.1) =
        insertNew (acc.map (fun p => p.1)) k := by
  intro acc
  induction acc with
  | nil => intro k v; simp [upsertAppend, insertNew]
  | cons p rest ih =>
    intro k v
    obtain ⟨k0, l0⟩ := p
    unfold upsertAppend
    by_cases h : k0 = k
    · subst h
      simp [insertNew]
    · rw [if_neg h]
      simp only [List.map_cons, ih]
      unfold insertNew
      by_cases hm : k ∈ rest.map (fun p => p.1)
      · rw [if_pos hm, if_pos (by simp [hm])]
      · rw [if_neg hm, if_neg (by simp [hm, Ne.symm h])]
        simp

/-- Lookup after an upsert. -/
theorem upsertAppend_lookup {β : Type} :
    ∀ (acc : List (String × List β)) (k : String) (v : β) (k2 : String),
      lookupA (upsertAppend acc k v) k2 =
        if k2 = k then some ((lookupA acc k).getD [] ++ [v])
        else lookupA acc k2 := by
  intro acc
  induction acc with
  | nil =>
    intro k v k2
    unfold upsertAppend
    rw [lookupA_cons]
    by_cases h : k2 = k
    · subst h; simp [lookupA]
    · simp [h, Ne.symm h, lookupA]
  | cons p rest ih =>
    intro k v k2
    obtain ⟨k0, l0⟩ := p
    by_cases h0 : k0 = k
    · subst h0
      have hred : upsertAppend ((k0, l0) :: rest) k0 v =
          (k0, l0 ++ [v]) :: rest := by
        unfold upsertAppend
        rw [if_pos rfl]
      rw [hred]
      by_cases h2 : k0 = k2
      · subst h2
        simp [lookupA_cons]
      · simp [lookupA_cons, h2, Ne.symm h2]
    · have hred : upsertAppend ((k0, l0) :: rest) k v =
          (k0, l0) :: upsertAppend rest k v := by
        rw [upsertAppend, if_neg h0]
      rw [hred]
      by_cases h2 : k0 = k2
      · subst h2
        simp [lookupA_cons, h0, Ne.symm h0]
      · simp [lookupA_cons, h0, h2, ih]

/-- Members survive `insertNew`. -/
theorem mem_insertNew_of_mem (ks : List String) (k x : String)
    (h : x ∈ ks) : x ∈ insertNew ks k := by
  unfold insertNew
  by_cases hk : k ∈ ks
  · rw [if_pos hk]; exact h
  · rw [if_neg hk]; exact List.mem_append_left _ h

/-- The inserted key is a member. -/
theorem mem_insertNew_self (ks : List String) (k : String) :
    k ∈ insertNew ks k := by
  unfold insertNew
  by_cases hk : k ∈ ks
  · rw [if_pos hk]; exact hk
  · rw [if_neg hk]; simp

/-- Keys of the accumulated dictionary after folding upserts. -/
theorem foldl_upsert_keys {α β : Type} (kf : α → String) (g : α → β) :
    ∀ (l : List α) (acc : List (String × List β)),
      ((l.foldl (fun a c => upsertAppend a (kf c) (g c)) acc).map
        (fun p => p.1)) =
      (l.map kf).foldl insertNew (acc.map (fun p => p.1)) := by
  intro l
  induction l with
  | nil => intro acc; rfl
  | cons c rest ih =>
    intro acc
    simp only [List.foldl_cons, List.map_cons]
    rw [ih, upsertAppend_keys]

/-- Value of the accumulated dictionary at a key that occurs (in the
accumulator or in the remaining combinations). -/
theorem foldl_upsert_lookup_mem {α β : Type} (kf : α → String) (g : α → β) :
    ∀ (l : List α) (acc : List (String × List β)) (k : String),
      (k ∈ acc.map (fun p => p.1) ∨ ∃ c ∈ l, kf c = k) →
      lookupA (l.foldl (fun a c => upsertAppend a (kf c) (g c)) acc) k =
        some ((lookupA acc k).getD [] ++
          ((l.filter (fun c => kf c = k)).map g)) := by
  intro l
  induction l with
  | nil =>
    intro acc k h
    rcases h with h | ⟨c, hc, _⟩
    · obtain ⟨v, hv, _⟩ := lookupA_mem acc k h
      simp [hv]
    · simp at hc
  | cons c rest ih =>
    intro acc k h
    simp only [List.foldl_cons]
    by_cases hc : kf c = k
    · have hmem : k ∈ (upsertAppend acc (kf c) (g c)).map (fun p => p.1) := by
        rw [upsertAppend_keys, hc]
        exact mem_insertNew_self _ _
      rw [ih _ k (Or.inl hmem)]
      rw [upsertAppend_lookup, if_pos hc.symm]
      have hfil : (c :: rest).filter (fun c => kf c = k) =
          c :: rest.filter (fun c => kf c = k) := by
        simp [List.filter_cons, hc]
      rw [hfil]
      simp [List.append_assoc, hc]
    · have hnext : k ∈ (upsertAppend acc (kf c) (g c)).map (fun p => p.1) ∨
          ∃ c2 ∈ rest, kf c2 = k := by
        rcases h with h | ⟨c2, hc2, hk2⟩
        · left
          rw [upsertAppend_keys]
          exact mem_insertNew_of_mem _ _ _ h
        · rcases List.mem_cons.mp hc2 with rfl | hc2
          · exact absurd hk2 hc
          · exact Or.inr ⟨c2, hc2, hk2⟩
      rw [ih _ k hnext]
      rw [upsertAppend_lookup, if_neg (fun hk => hc hk.symm)]
      have hfil : (c :: rest).filter (fun c => kf c = k) =
          rest.filter (fun c => kf c = k) := by
        simp [List.filter_cons, hc]
      rw [hfil]

/-! ## Key-order lemmas for the combination product -/

/-- Folding `insertNew` over already-present keys changes nothing. -/
theorem foldl_insertNew_mem :
    ∀ (l : List String) (ks : List String), (∀ x ∈ l, x ∈ ks) →
      l.foldl insertNew ks = ks := by
  intro l
  induction l with
  | nil => intro ks _; rfl
  | cons x rest ih =>
    intro ks h
    simp only [List.foldl_cons]
    have hx : insertNew ks x = ks := by
      unfold insertNew
      rw [if_pos (h x (by simp))]
    rw [hx]
    exact ih ks (fun y hy => h y (by simp [hy]))

/-- Folding `insertNew` over blocks of repeated fresh keys appends the
keys in block order. -/
theorem foldl_insertNew_blocks (n : ℕ) (hn : 0 < n) :
    ∀ (K : List String) (ks : List String), K.Nodup →
      (∀ k ∈ K, k ∉ ks) →
      ((K.flatMap fun k => List.replicate n k).foldl insertNew ks) =
        ks ++ K := by
  intro K
  induction K with
  | nil => intro ks _ _; simp
  | cons k K2 ih =>
    intro ks hnd hfresh
    simp only [List.flatMap_cons, List.foldl_append]
    have h1 : insertNew ks k = ks ++ [k] := by
      unfold insertNew
      rw [if_neg (hfresh k (by simp))]
    have hblock : (List.replicate n k).foldl insertNew ks = ks ++ [k] := by
      obtain ⟨m, rfl⟩ : ∃ m, n = m + 1 := ⟨n - 1, by omega⟩
      rw [List.replicate_succ, List.foldl_cons, h1]
      apply foldl_insertNew_mem
      intro x hx
      rw [List.eq_of_mem_replicate hx]
      simp
    rw [hblock]
    have hfresh2 : ∀ k2 ∈ K2, k2 ∉ ks ++ [k] := by
      intro k2 hk2
      simp only [List.mem_append, List.mem_singleton]
      rintro (h | rfl)
      · exact hfresh k2 (by simp [hk2]) h
      · exact (List.nodup_cons.mp hnd).1 hk2
    rw [ih (ks ++ [k]) (List.nodup_cons.mp hnd).2 hfresh2]
    simp

/-- Folding `insertNew` over further whole blocks of present keys
changes nothing. -/
theorem foldl_insertNew_flat_mem (K : List String) (n : ℕ) :
    ∀ (ms : List String) (ks : List String), (∀ x ∈ K, x ∈ ks) →
      ((ms.flatMap fun _ => K.flatMap fun ln =>
        List.replicate n ln).foldl insertNew ks) = ks := by
  intro ms
  induction ms with
  | nil => intro ks _; rfl
  | cons m ms2 ih =>
    intro ks h
    simp only [List.flatMap_cons, List.foldl_append]
    have hK : (K.flatMap fun ln => List.replicate n ln).foldl insertNew ks =
        ks := by
      apply foldl_insertNew_mem
      intro x hx
      rw [List.mem_flatMap] at hx
      obtain ⟨ln, hln, hx⟩ := hx
      rw [List.eq_of_mem_replicate hx]
      exact h ln hln
    rw [hK]
    exact ih ks h

/-- The loader-name sequence of the combination product. -/
theorem combos_key_list (models : List String) (K : List String)
    (n_runs : ℤ) :
    (combosOf models K n_runs).map (fun c => c.2.1) =
      models.flatMap fun _ => K.flatMap fun ln =>
        List.replicate n_runs.toNat ln := by
  unfold combosOf
  simp only [List.map_flatMap, List.map_map, Function.comp_def]
  congr 1
  funext m
  congr 1
  funext ln
  rw [List.map_const', List.length_range]

/-- The keys accumulated over the full product are exactly the loader
names, in order. -/
theorem combos_keys (models : List String) (K : List String)
    (n_runs : ℤ) (hm : models ≠ []) (hn : 0 < n_runs) (hnd : K.Nodup) :
    ((combosOf models K n_runs).map (fun c => c.2.1)).foldl insertNew [] =
      K := by
  rw [combos_key_list]
  obtain ⟨m0, ms, rfl⟩ : ∃ m0 ms, models = m0 :: ms := by
    cases models with
    | nil => exact absurd rfl hm
    | cons a l => exact ⟨a, l, rfl⟩
  simp only [List.flatMap_cons, List.foldl_append]
  rw [foldl_insertNew_blocks n_runs.toNat (by omega) K [] hnd (by simp)]
  rw [List.nil_append]
  exact foldl_insertNew_flat_mem K n_runs.toNat ms K (fun x hx => hx)

/-- Filtering the product to one loader name keeps exactly the
(model, run) combinations of that name, in nested order. -/
theorem combos_filter (models : List String) (K : List String)
    (n_runs : ℤ) (k : String) (hk : k ∈ K) (hnd : K.Nodup) :
    (combosOf models K n_runs).filter (fun c => c.2.1 = k) =
      models.flatMap fun m =>
        (List.range n_runs.toNat).map fun r => (m, k, r) := by
  unfold combosOf
  induction models with
  | nil => simp
  | cons m ms ih =>
    simp only [List.flatMap_cons, List.filter_append]
    rw [ih]
    congr 1
    clear ih
    induction K with
    | nil => simp at hk
    | cons k0 K2 ihK =>
      simp only [List.flatMap_cons, List.filter_append]
      by_cases h0 : k0 = k
      · subst h0
        have h1 : ((List.range n_runs.toNat).map fun r => (m, k0, r)).filter
            (fun c => c.2.1 = k0) =
            (List.range n_runs.toNat).map fun r => (m, k0, r) := by
          rw [List.filter_eq_self]
          intro c hc
          rw [List.mem_map] at hc
          obtain ⟨r, _, rfl⟩ := hc
          simp
        have h2 : (K2.flatMap fun ln =>
            (List.range n_runs.toNat).map fun r => (m, ln, r)).filter
            (fun c => c.2.1 = k0) = [] := by
          rw [List.filter_eq_nil_iff]
          intro c hc
          rw [List.mem_flatMap] at hc
          obtain ⟨ln, hln, hc⟩ := hc
          rw [List.mem_map] at hc
          obtain ⟨r, _, rfl⟩ := hc
          simp only [decide_eq_true_eq]
          intro hc
          exact (List.nodup_cons.mp hnd).1 (hc ▸ hln)
        rw [h1, h2, List.append_nil]
      · have h1 : ((List.range n_runs.toNat).map fun r => (m, k0, r)).filter
            (fun c => c.2.1 = k) = [] := by
          rw [List.filter_eq_nil_iff]
          intro c hc
          rw [List.mem_map] at hc
          obtain ⟨r, _, rfl⟩ := hc
          simp [h0]
        rw [h1, List.nil_append]
        apply ihK
        · rcases List.mem_cons.mp hk with rfl | h
          · exact absurd rfl h0
          · exact h
        · exact (List.nodup_cons.mp hnd).2

/-! ## Loop characterization (claim C5) -/

/-- One loop iteration under the success conditions: binary labels and a
buildable model name. -/
theorem runCombo_ok {Part D : Type} (tr : TrainerO Part D)
    (relpath : List Char) (rm : RelMeta)
    (data_loaders : List (String × DataLoader Part))
    (single_rel_types : List (List Char)) (epochs_fn : ℕ → ℤ)
    (disturber : Option D) (debug : Bool) (cuda : Bool)
    (m ln : String) (run : ℕ) (dl : DataLoader Part)
    (hdl : lookupA data_loaders ln = some dl) (y : ℚ) (ys : List ℚ)
    (hY : (loadFor dl rm single_rel_types relpath).Y = y :: ys)
    (hmax : ys.foldl max y = 1) (hmin : ys.foldl min y = 0)
    (bm : BModel)
    (hbm : build_model m
      (loadFor dl rm single_rel_types relpath).shape.2 = .ok bm) :
    runCombo tr relpath rm data_loaders single_rel_types epochs_fn
        disturber debug cuda m ln run =
      (.ok (mkRunL tr relpath rm data_loaders single_rel_types epochs_fn
          disturber debug cuda m ln run),
       [Ev.loadCall ln,
        Ev.buildCall m (loadFor dl rm single_rel_types relpath).shape.2]) := by
  simp only [runCombo, mkRunL, mkRun, hdl, hY, hmax, hmin, hbm, and_self,
    if_true, Except.toOption, Option.getD]
  rfl

/-- The loop accumulates by folding upserts, when every combination
succeeds. -/
theorem goCombos_fst_ok {Part D : Type} (tr : TrainerO Part D)
    (relpath : List Char) (rm : RelMeta)
    (data_loaders : List (String × DataLoader Part))
    (single_rel_types : List (List Char)) (epochs_fn : ℕ → ℤ)
    (disturber : Option D) (debug : Bool) (cuda : Bool) :
    ∀ (combos : List (String × String × ℕ))
      (acc : List (String × List EmbRunResult)),
      (∀ c ∈ combos,
        (runCombo tr relpath rm data_loaders single_rel_types epochs_fn
            disturber debug cuda c.1 c.2.1 c.2.2).1 =
          .ok (mkRunL tr relpath rm data_loaders single_rel_types epochs_fn
            disturber debug cuda c.1 c.2.1 c.2.2)) →
      (goCombos tr relpath rm data_loaders single_rel_types epochs_fn
          disturber debug cuda combos acc).1 =
        .ok (combos.foldl (fun a c => upsertAppend a c.2.1
          (mkRunL tr relpath rm data_loaders single_rel_types epochs_fn
            disturber debug cuda c.1 c.2.1 c.2.2)) acc) := by
  intro combos
  induction combos with
  | nil => intro acc _; rfl
  | cons c rest ih =>
    intro acc hok
    obtain ⟨m, ln, r⟩ := c
    have hc := hok (m, ln, r) (by simp)
    rcases hrc : runCombo tr relpath rm data_loaders single_rel_types
      epochs_fn disturber debug cuda m ln r with ⟨res, ev⟩
    rw [hrc] at hc
    simp only at hc
    subst hc
    simp only [goCombos, hrc, List.foldl_cons]
    exact ih _ (fun c2 hc2 => hok c2 (by simp [hc2]))

/-- The fields the loop records for each combination. -/
theorem mkRunL_fields {Part D : Type} (tr : TrainerO Part D)
    (relpath : List Char) (rm : RelMeta)
    (data_loaders : List (String × DataLoader Part))
    (single_rel_types : List (List Char)) (epochs_fn : ℕ → ℤ)
    (disturber : Option D) (debug : Bool) (cuda : Bool)
    (m ln : String) (run : ℕ)
    (hln : ln ∈ data_loaders.map (fun p => p.1)) :
    (mkRunL tr relpath rm data_loaders single_rel_types epochs_fn
        disturber debug cuda m ln run).model = m ∧
    (mkRunL tr relpath rm data_loaders single_rel_types epochs_fn
        disturber debug cuda m ln run).emb = ln ∧
    (mkRunL tr relpath rm data_loaders single_rel_types epochs_fn
        disturber debug cuda m ln run).i = (run : ℤ) ∧
    (mkRunL tr relpath rm data_loaders single_rel_types epochs_fn
        disturber debug cuda m ln run).pos_exs = rm.cnt := by
  obtain ⟨dl, hdl, _⟩ := lookupA_mem data_loaders ln hln
  simp [mkRunL, hdl, mkRun]

/-- The central characterization of the training loop: for a relation
passing the count and filter checks, with loaders delivering binary
labels and buildable models, the result dictionary has exactly the
loader names as keys, in order, and under each key the list of
`mkRunL` records for (model, run) in product order. -/
theorem learn_rel_characterization {Part D : Type} (tr : TrainerO Part D)
    (relpath : List Char) (rel_meta : RelMeta)
    (data_loaders : List (String × DataLoader Part))
    (single_rel_types : List (List Char)) (epochs_fn : ℕ → ℤ)
    (rel_filter : Option (RelMeta → Bool)) (models : List String)
    (n_runs : ℤ) (disturber : Option D) (debug : Bool) (cuda : Bool)
    (hcnt : ¬ rel_meta.cnt < 75)
    (hfilter : ∀ f, rel_filter = some f → f rel_meta = true)
    (hm : models ≠ []) (hn : 0 < n_runs)
    (hkeys : (data_loaders.map (fun p => p.1)).Nodup)
    (hY : ∀ p ∈ data_loaders, ∃ y ys,
      (loadFor p.2 rel_meta single_rel_types relpath).Y = y :: ys ∧
      ys.foldl max y = 1 ∧ ys.foldl min y = 0)
    (hbuild : ∀ p ∈ data_loaders, ∀ m ∈ models, ∃ bm,
      build_model m
        (loadFor p.2 rel_meta single_rel_types relpath).shape.2 = .ok bm) :
    (learn_rel tr relpath rel_meta data_loaders single_rel_types epochs_fn
        rel_filter models n_runs disturber debug cuda).1 =
      .ok ⟨String.mk rel_meta.name, String.mk rel_meta.type,
        some rel_meta.cnt,
        (data_loaders.map (fun p => p.1)).map fun ln =>
          (ln, models.flatMap fun m =>
            (List.range n_runs.toNat).map fun run =>
              mkRunL tr relpath rel_meta data_loaders single_rel_types
                epochs_fn disturber debug cuda m ln run)⟩ := by
  have hok : ∀ c ∈ combosOf models (data_loaders.map (fun p => p.1)) n_runs,
      (runCombo tr relpath rel_meta data_loaders single_rel_types epochs_fn
          disturber debug cuda c.1 c.2.1 c.2.2).1 =
        .ok (mkRunL tr relpath rel_meta data_loaders single_rel_types
          epochs_fn disturber debug cuda c.1 c.2.1 c.2.2) := by
    intro c hc
    obtain ⟨m, ln, r⟩ := c
    simp only [combosOf, List.mem_flatMap, List.mem_range] at hc
    obtain ⟨m2, hm2, ln2, hln2, hc⟩ := hc
    rw [List.mem_map] at hc
    obtain ⟨r2, hr2, heq⟩ := hc
    obtain ⟨rfl, rfl, rfl⟩ : m2 = m ∧ ln2 = ln ∧ r2 = r := by
      rw [Prod.mk.injEq, Prod.mk.injEq] at heq
      exact ⟨heq.1, heq.2.1, heq.2.2⟩
    obtain ⟨dl, hdl, hmem⟩ := lookupA_mem data_loaders ln2 hln2
    obtain ⟨y, ys, hY1, hmax, hmin⟩ := hY (ln2, dl) hmem
    obtain ⟨bm, hbm⟩ := hbuild (ln2, dl) hmem m2 hm2
    rw [runCombo_ok tr relpath rel_meta data_loaders single_rel_types
      epochs_fn disturber debug cuda m2 ln2 r2 dl hdl y ys hY1 hmax hmin
      bm hbm]
  rcases hgc : goCombos tr relpath rel_meta data_loaders single_rel_types
    epochs_fn disturber debug cuda
    (combosOf models (data_loaders.map (fun p => p.1)) n_runs) []
    with ⟨res, ev⟩
  have hres := goCombos_fst_ok tr relpath rel_meta data_loaders
    single_rel_types epochs_fn disturber debug cuda
    (combosOf models (data_loaders.map (fun p => p.1)) n_runs) [] hok
  rw [hgc] at hres
  simp only at hres
  subst hres
  have hred : learn_rel tr relpath rel_meta data_loaders single_rel_types
      epochs_fn rel_filter models n_runs disturber debug cuda =
      (.ok ⟨String.mk rel_meta.name, String.mk rel_meta.type,
        some rel_meta.cnt,
        (combosOf models (data_loaders.map (fun p => p.1)) n_runs).foldl
          (fun a c => upsertAppend a c.2.1
            (mkRunL tr relpath rel_meta data_loaders single_rel_types
              epochs_fn disturber debug cuda c.1 c.2.1 c.2.2)) []⟩, ev) := by
    cases hr : rel_filter with
    | none =>
      unfold learn_rel
      rw [if_neg hcnt, if_neg (by simp), hgc]
    | some f =>
      unfold learn_rel
      rw [if_neg hcnt, if_neg (by simp [hr, hfilter f hr]), hgc]
  rw [hred]
  simp only [Except.ok.injEq, LearnResult.mk.injEq, true_and]
  apply assoc_ext
  · have hk := foldl_upsert_keys (fun c : String × String × ℕ => c.2.1)
      (fun c => mkRunL tr relpath rel_meta data_loaders single_rel_types
        epochs_fn disturber debug cuda c.1 c.2.1 c.2.2)
      (combosOf models (data_loaders.map (fun p => p.1)) n_runs) []
    simp only [List.map_nil] at hk
    rw [hk, combos_keys models _ n_runs hm hn hkeys]
    simp [List.map_map, Function.comp_def]
  · have hk := foldl_upsert_keys (fun c : String × String × ℕ => c.2.1)
      (fun c => mkRunL tr relpath rel_meta data_loaders single_rel_types
        epochs_fn disturber debug cuda c.1 c.2.1 c.2.2)
      (combosOf models (data_loaders.map (fun p => p.1)) n_runs) []
    simp only [List.map_nil] at hk
    rw [hk, combos_keys models _ n_runs hm hn hkeys]
    exact hkeys
  · intro k
    by_cases hkK : k ∈ data_loaders.map (fun p => p.1)
    · obtain ⟨m0, ms, hms⟩ : ∃ m0 ms, models = m0 :: ms := by
        cases models with
        | nil => exact absurd rfl hm
        | cons a l => exact ⟨a, l, rfl⟩
      have hmemc : ∃ c ∈ combosOf models (data_loaders.map (fun p => p.1))
          n_runs, (fun c : String × String × ℕ => c.2.1) c = k := by
        refine ⟨(m0, k, 0), ?_, rfl⟩
        simp only [combosOf, List.mem_flatMap]
        exact ⟨m0, by simp [hms], k, hkK,
          List.mem_map.mpr ⟨0, List.mem_range.mpr (by omega), rfl⟩⟩
      have hlk := foldl_upsert_lookup_mem
        (fun c : String × String × ℕ => c.2.1)
        (fun c => mkRunL tr relpath rel_meta data_loaders single_rel_types
          epochs_fn disturber debug cuda c.1 c.2.1 c.2.2)
        (combosOf models (data_loaders.map (fun p => p.1)) n_runs) [] k
        (Or.inr hmemc)
      rw [hlk]
      rw [combos_filter models _ n_runs k hkK hkeys]
      rw [lookupA_map_self (fun ln => models.flatMap fun m =>
        (List.range n_runs.toNat).map fun run =>
          mkRunL tr relpath rel_meta data_loaders single_rel_types
            epochs_fn disturber debug cuda m ln run) _ k hkK]
      simp [lookupA, List.map_flatMap, List.map_map, Function.comp_def]
    · have h1 : k ∉ ((combosOf models (data_loaders.map (fun p => p.1))
          n_runs).foldl (fun a c => upsertAppend a c.2.1
            (mkRunL tr relpath rel_meta data_loaders single_rel_types
              epochs_fn disturber debug cuda c.1 c.2.1 c.2.2)) []).map
          (fun p => p.1) := by
        have hk := foldl_upsert_keys (fun c : String × String × ℕ => c.2.1)
          (fun c => mkRunL tr relpath rel_meta data_loaders single_rel_types
            epochs_fn disturber debug cuda c.1 c.2.1 c.2.2)
          (combosOf models (data_loaders.map (fun p => p.1)) n_runs) []
        simp only [List.map_nil] at hk
        rw [hk, combos_keys models _ n_runs hm hn hkeys]
        exact hkK
      have h2 : k ∉ ((data_loaders.map (fun p => p.1)).map fun ln =>
          (ln, models.flatMap fun m =>
            (List.range n_runs.toNat).map fun run =>
              mkRunL tr relpath rel_meta data_loaders single_rel_types
                epochs_fn disturber debug cuda m ln run)).map
          (fun p => p.1) := by
        rw [List.map_map]
        simpa [Function.comp_def] using hkK
      rw [(lookupA_eq_none _ k).mpr h1, (lookupA_eq_none _ k).mpr h2]

/-- Claim C5: for a relation passing the count and filter checks (with a
nonempty model list, a nonempty loader dictionary and a positive run
count, and loaders delivering binary labels and buildable models),
`learn_rel` iterates over every (model, loader, run) combination in
nested order — model outermost, loader middle, run innermost — and
records exactly one run result per combination, keyed by loader name:
the result dictionary has exactly the loader names as keys, in order,
and under each key the list of `mkRunL` records for (model, run) in
product order; each record carries the model name, the loader name as
embedding source, the run index and the positive count
(`mkRunL_fields`). -/
theorem C5_loop_structure {Part D : Type} (tr : TrainerO Part D)
    (relpath : List Char) (rel_meta : RelMeta)
    (data_loaders : List (String × DataLoader Part))
    (single_rel_types : List (List Char)) (epochs_fn : ℕ → ℤ)
    (rel_filter : Option (RelMeta → Bool)) (models : List String)
    (n_runs : ℤ) (disturber : Option D) (debug : Bool) (cuda : Bool)
    (hcnt : ¬ rel_meta.cnt < 75)
    (hfilter : ∀ f, rel_filter = some f → f rel_meta = true)
    (hm : models ≠ []) (hn : 0 < n_runs)
    (hkeys : (data_loaders.map (fun p => p.1)).Nodup)
    (hY : ∀ p ∈ data_loaders, ∃ y ys,
      (loadFor p.2 rel_meta single_rel_types relpath).Y = y :: ys ∧
      ys.foldl max y = 1 ∧ ys.foldl min y = 0)
    (hbuild : ∀ p ∈ data_loaders, ∀ m ∈ models, ∃ bm,
      build_model m
        (loadFor p.2 rel_meta single_rel_types relpath).shape.2 = .ok bm) :
    (learn_rel tr relpath rel_meta data_loaders single_rel_types epochs_fn
        rel_filter models n_runs disturber debug cuda).1 =
      .ok ⟨String.mk rel_meta.name, String.mk rel_meta.type,
        some rel_meta.cnt,
        (data_loaders.map (fun p => p.1)).map fun ln =>
          (ln, models.flatMap fun m =>
            (List.range n_runs.toNat).map fun run =>
              mkRunL tr relpath rel_meta data_loaders single_rel_types
                epochs_fn disturber debug cuda m ln run)⟩ :=
  learn_rel_characterization tr relpath rel_meta data_loaders
    single_rel_types epochs_fn rel_filter models n_runs disturber debug
    cuda hcnt hfilter hm hn hkeys hY hbuild

/-- Witness for `C5_loop_structure`: the end-to-end scenario — relation
with 100 positive examples, one loader `glove`, models `[logreg]`, two
runs. -/
theorem C5_witness :
    (learn_rel testTrainer "rels".toList testMeta [("glove", gloveLoader)]
        [] (fun _ => 3) none ["logreg"] 2 none false false).1 =
      .ok ⟨String.mk testMeta.name, String.mk testMeta.type,
        some testMeta.cnt,
        ([("glove", gloveLoader)].map (fun p => p.1)).map fun ln =>
          (ln, ["logreg"].flatMap fun m =>
            (List.range (2:ℤ).toNat).map fun run =>
              mkRunL testTrainer "rels".toList testMeta
                [("glove", gloveLoader)] [] (fun _ => 3) none false false
                m ln run)⟩ :=
  C5_loop_structure testTrainer "rels".toList testMeta
    [("glove", gloveLoader)] [] (fun _ => 3) none ["logreg"] 2 none false
    false (by decide) (fun f h => nomatch h) (by decide) (by decide)
    (by decide)
    (by
      intro p hp
      simp only [List.mem_singleton] at hp
      subst hp
      exact ⟨0, [1, 0, 1], rfl, by decide, by decide⟩)
    (by
      intro p hp m hm
      simp only [List.mem_singleton] at hp
      simp only [List.mem_singleton] at hm
      subst hp
      subst hm
      exact ⟨.logisticRegression 2, rfl⟩)

/-! ## The loader `pos_exs` accumulator (claim C7) -/

/-- The `pos_exs` accumulator threaded by `goEmbs` is the fold of
`posStep` over the loaded runs in encounter order. -/
theorem goEmbs_pos (rel_entries : FTree) :
    ∀ (embs : List String) (pos0 : Option ℤ)
      (assoc : List (String × List EmbRunResult)) (p : Option ℤ),
      goEmbs rel_entries embs pos0 = .ok (assoc, p) →
      p = (assoc.flatMap fun g => g.2).foldl
        (fun q r => posStep q r.pos_exs) pos0 := by
  intro embs
  induction embs with
  | nil =>
    intro pos0 assoc p h
    simp only [goEmbs] at h
    cases h
    rfl
  | cons emb rest ih =>
    intro pos0 assoc p h
    simp only [goEmbs] at h
    cases hg : loadEmbGroup (descend rel_entries emb) with
    | error e =>
      simp only [hg] at h
      exact Except.noConfusion h
    | ok runs =>
      simp only [hg] at h
      cases hrec : goEmbs rel_entries rest
          (runs.foldl (fun q r => posStep q r.pos_exs) pos0) with
      | error e =>
        simp only [hrec] at h
        exact Except.noConfusion h
      | ok pr =>
        obtain ⟨assoc2, pfin⟩ := pr
        simp only [hrec, Except.ok.injEq, Prod.mk.injEq] at h
        obtain ⟨h1, h2⟩ := h
        subst h1
        subst h2
        rw [ih _ assoc2 pfin hrec]
        simp [List.foldl_append]

/-- A truthy accumulator is final. -/
theorem posStep_foldl_stay (z : ℤ) (hz : z ≠ 0) :
    ∀ l : List ℤ, l.foldl posStep (some z) = some z := by
  intro l
  induction l with
  | nil => rfl
  | cons v rest ih =>
    simp only [List.foldl_cons, posStep, if_pos hz]
    exact ih

/-- Starting from the falsy value `some 0` behaves like starting from
`none`, except that an all-zero tail keeps the zero. -/
theorem posStep_foldl_zero :
    ∀ rest : List ℤ, rest.foldl posStep (some 0) =
      (rest.foldl posStep none).orElse (fun _ => some 0) := by
  intro rest
  induction rest with
  | nil => rfl
  | cons v r2 ih =>
    simp only [List.foldl_cons]
    have hstep0 : posStep (some 0) v = some v := by
      simp [posStep]
    have hstepn : posStep none v = some v := rfl
    rw [hstep0, hstepn]
    by_cases hv : v = 0
    · subst hv
      rw [ih]
      cases hfold : r2.foldl posStep none with
      | none => rfl
      | some w => rfl
    · rw [posStep_foldl_stay v hv]
      rfl

/-- The fold from `none` yields the first nonzero value, the leading
zero when all values are zero, and `none` when there are no values. -/
theorem posStep_foldl_none :
    ∀ l : List ℤ, l.foldl posStep none =
      (l.find? (fun v => v ≠ 0)).orElse (fun _ => l.head?) := by
  intro l
  induction l with
  | nil => rfl
  | cons v rest ih =>
    simp only [List.foldl_cons]
    have hstepn : posStep none v = some v := rfl
    rw [hstepn]
    by_cases hv : v = 0
    · subst hv
      rw [posStep_foldl_zero, ih]
      have hfind : (((0:ℤ) :: rest).find? fun v => v ≠ 0) =
          rest.find? (fun v => v ≠ 0) := by
        simp [List.find?_cons]
      rw [hfind]
      cases hf : rest.find? (fun v => v ≠ 0) with
      | some w => rfl
      | none =>
        cases rest with
        | nil => rfl
        | cons h r3 =>
          have h0 : h = 0 := by
            by_contra hh
            simp [List.find?_cons, hh] at hf
          subst h0
          rfl
    · rw [posStep_foldl_stay v hv]
      have hfind : ((v :: rest).find? fun v => v ≠ 0) = some v := by
        simp [List.find?_cons, hv]
      rw [hfind]
      rfl

/-- Unpacking a successful `load_learn_result`. -/
theorem load_learn_result_ok (tree : FTree) (dir_path : List String)
    (rel_type rel_name : String) (R : LearnResult)
    (h : load_learn_result tree dir_path rel_type rel_name = .ok R) :
    ∃ assoc pos,
      goEmbs (descendPath tree (dir_path ++ [rel_type, rel_name]))
        (childDirs (descendPath tree (dir_path ++ [rel_type, rel_name])))
        none = .ok (assoc, pos) ∧
      R = ⟨rel_name, rel_type, pos, assoc⟩ := by
  unfold load_learn_result at h
  by_cases he : descendPath tree (dir_path ++ [rel_type, rel_name]) = []
  · rw [if_pos he] at h
    cases h
  · rw [if_neg he] at h
    cases hg : goEmbs (descendPath tree (dir_path ++ [rel_type, rel_name]))
        (childDirs (descendPath tree (dir_path ++ [rel_type, rel_name])))
        none with
    | error e => rw [hg] at h; cases h
    | ok pr =>
      obtain ⟨assoc, pos⟩ := pr
      rw [hg] at h
      cases h
      exact ⟨assoc, pos, rfl, rfl⟩

/-- Claim C7 (amended): the aggregate `pos_exs` of a loaded relation is
the first *truthy* (nonzero) run value in enumeration order — the
leading zero if every run carries zero, `None` if there are no runs —
because `if not pos_exs` treats the integer `0` like `None`; it is the
first run's value whenever that value is nonzero, and later runs are
never validated against it. -/
theorem C7_pos_exs_first_truthy (tree : FTree) (dir_path : List String)
    (rel_type rel_name : String) (R : LearnResult)
    (h : load_learn_result tree dir_path rel_type rel_name = .ok R) :
    R.pos_exs =
      ((R.emb_model_results.flatMap fun g =>
          g.2.map fun r => r.pos_exs).find? (fun v => v ≠ 0)).orElse
        (fun _ => (R.emb_model_results.flatMap fun g =>
          g.2.map fun r => r.pos_exs).head?) := by
  obtain ⟨assoc, pos, hg, rfl⟩ := load_learn_result_ok _ _ _ _ _ h
  have hp := goEmbs_pos _ _ _ _ _ hg
  simp only
  rw [hp]
  have hmap : (assoc.flatMap fun g => g.2.map fun r => r.pos_exs) =
      ((assoc.flatMap fun g => g.2).map fun r => r.pos_exs) := by
    rw [List.map_flatMap]
  rw [hmap, ← posStep_foldl_none, List.foldl_map]

/-- Claim C7, counterexample: a stored relation whose first run
directory carries `pos_exs = 0` and whose second carries `5` loads with
aggregate `pos_exs = 5`, not the value `0` of the first run directory
encountered. -/
theorem C7_counterexample :
    (load_learn_result posTree [] "t1" "rel1").map (fun r => r.pos_exs) =
      .ok (some 5) ∧
    firstRunPos posTree [] "t1" "rel1" = some 0 ∧
    (load_learn_result posTree [] "t1" "rel1").map (fun r => r.pos_exs) ≠
      .ok (firstRunPos posTree [] "t1" "rel1") := by
  refine ⟨by decide, by decide, by decide⟩

/-- Witness for `C7_pos_exs_first_truthy` at the concrete stored tree. -/
theorem C7_witness :
    (⟨"rel1", "t1", some 5, [("emb1", [runPos0, runPos5])]⟩ :
        LearnResult).pos_exs =
      (((⟨"rel1", "t1", some 5, [("emb1", [runPos0, runPos5])]⟩ :
          LearnResult).emb_model_results.flatMap fun g =>
            g.2.map fun r => r.pos_exs).find? (fun v => v ≠ 0)).orElse
        (fun _ => ((⟨"rel1", "t1", some 5,
            [("emb1", [runPos0, runPos5])]⟩ :
          LearnResult).emb_model_results.flatMap fun g =>
            g.2.map fun r => r.pos_exs).head?) :=
  C7_pos_exs_first_truthy posTree [] "t1" "rel1" _ (by decide)

/-! ## The embedding-source invariant (claim C8) -/

/-- A successful loop iteration records the loader key as the
`embedding_source` field. -/
theorem runCombo_ok_emb {Part D : Type} (tr : TrainerO Part D)
    (relpath : List Char) (rm : RelMeta)
    (data_loaders : List (String × DataLoader Part))
    (single_rel_types : List (List Char)) (epochs_fn : ℕ → ℤ)
    (disturber : Option D) (debug : Bool) (cuda : Bool)
    (m ln : String) (run : ℕ) (val : EmbRunResult)
    (h : (runCombo tr relpath rm data_loaders single_rel_types epochs_fn
      disturber debug cuda m ln run).1 = .ok val) : val.emb = ln := by
  unfold runCombo at h
  cases hdl : lookupA data_loaders ln with
  | none => simp only [hdl] at h; exact Except.noConfusion h
  | some dl =>
    simp only [hdl] at h
    cases hY : (loadFor dl rm single_rel_types relpath).Y with
    | nil => simp only [hY] at h; exact Except.noConfusion h
    | cons y ys =>
      simp only [hY] at h
      by_cases hb : (ys.foldl max y = 1 ∧ ys.foldl min y = 0)
      · rw [if_pos hb] at h
        cases hbm : build_model m (loadFor dl rm single_rel_types relpath).shape.2 with
        | error e => simp only [hbm] at h; exact Except.noConfusion h
        | ok bm =>
          simp only [hbm] at h
          cases h
          rfl
      · rw [if_neg hb] at h
        exact Except.noConfusion h

/-- Upserting a value whose `emb` field equals the key preserves the
invariant. -/
theorem upsertAppend_inv (acc : List (String × List EmbRunResult))
    (k : String) (v : EmbRunResult) (hv : v.emb = k)
    (hacc : ∀ p ∈ acc, ∀ r ∈ p.2, r.emb = p.1) :
    ∀ p ∈ upsertAppend acc k v, ∀ r ∈ p.2, r.emb = p.1 := by
  induction acc with
  | nil =>
    intro p hp r hr
    simp only [upsertAppend, List.mem_singleton] at hp
    subst hp
    simp only [List.mem_singleton] at hr
    subst hr
    exact hv
  | cons q rest ih =>
    obtain ⟨k0, l0⟩ := q
    intro p hp r hr
    by_cases h0 : k0 = k
    · subst h0
      rw [upsertAppend, if_pos rfl] at hp
      rcases List.mem_cons.mp hp with rfl | hp
      · rcases List.mem_append.mp hr with hr | hr
        · exact hacc (k0, l0) (by simp) r hr
        · rw [List.mem_singleton] at hr
          subst hr
          exact hv
      · exact hacc p (by simp [hp]) r hr
    · rw [upsertAppend, if_neg h0] at hp
      rcases List.mem_cons.mp hp with rfl | hp
      · exact hacc (k0, l0) (by simp) r hr
      · exact ih (fun p2 hp2 => hacc p2 (by simp [hp2])) p hp r hr

/-- The loop preserves the embedding-source invariant. -/
theorem goCombos_inv {Part D : Type} (tr : TrainerO Part D)
    (relpath : List Char) (rm : RelMeta)
    (data_loaders : List (String × DataLoader Part))
    (single_rel_types : List (List Char)) (epochs_fn : ℕ → ℤ)
    (disturber : Option D) (debug : Bool) (cuda : Bool) :
    ∀ (combos : List (String × String × ℕ))
      (acc out : List (String × List EmbRunResult)) (ev : List Ev),
      goCombos tr relpath rm data_loaders single_rel_types epochs_fn
        disturber debug cuda combos acc = (.ok out, ev) →
      (∀ p ∈ acc, ∀ r ∈ p.2, r.emb = p.1) →
      ∀ p ∈ out, ∀ r ∈ p.2, r.emb = p.1 := by
  intro combos
  induction combos with
  | nil =>
    intro acc out ev h hacc
    simp only [goCombos, Prod.mk.injEq, Except.ok.injEq] at h
    rw [← h.1]
    exact hacc
  | cons c rest ih =>
    obtain ⟨m, ln, rn⟩ := c
    intro acc out ev h hacc
    simp only [goCombos] at h
    rcases hrc : runCombo tr relpath rm data_loaders single_rel_types
      epochs_fn disturber debug cuda m ln rn with ⟨res, ev2⟩
    rw [hrc] at h
    cases res with
    | error e =>
      simp only [Prod.mk.injEq] at h
      exact Except.noConfusion h.1
    | ok val =>
      simp only [Prod.mk.injEq] at h
      have hemb : val.emb = ln :=
        runCombo_ok_emb tr relpath rm data_loaders single_rel_types
          epochs_fn disturber debug cuda m ln rn val (by rw [hrc])
      rcases hnext : goCombos tr relpath rm data_loaders single_rel_types
        epochs_fn disturber debug cuda rest (upsertAppend acc ln val)
        with ⟨res2, ev3⟩
      rw [hnext] at h
      simp only [Prod.mk.injEq] at h
      exact ih (upsertAppend acc ln val) out ev3 (by rw [hnext, h.1])
        (upsertAppend_inv acc ln val hemb hacc)

/-- Every element of a successful `traverseE` comes from a successful
cell. -/
theorem traverseE_ok_mem {α : Type} (l : List (Except String α))
    (ms : List α) (h : traverseE l = .ok ms) :
    ∀ x ∈ ms, ∃ c ∈ l, c = .ok x := by
  induction l generalizing ms with
  | nil =>
    simp only [traverseE, Except.ok.injEq] at h
    subst h
    intro x hx
    simp at hx
  | cons c rest ih =>
    cases c with
    | error e => simp [traverseE] at h
    | ok a =>
      simp only [traverseE] at h
      cases h2 : traverseE rest with
      | error e => rw [h2] at h; exact Except.noConfusion h
      | ok ms2 =>
        rw [h2] at h
        cases h
        intro x hx
        rcases List.mem_cons.mp hx with rfl | hx
        · exact ⟨.ok x, by simp, rfl⟩
        · obtain ⟨c2, hc2, hc2x⟩ := ih ms2 h2 x hx
          exact ⟨c2, by simp [hc2], hc2x⟩

/-- Every group of a successful `goEmbs` is the loaded group of its
embedding directory. -/
theorem goEmbs_assoc_mem (rel_entries : FTree) :
    ∀ (embs : List String) (pos : Option ℤ)
      (assoc : List (String × List EmbRunResult)) (p : Option ℤ),
      goEmbs rel_entries embs pos = .ok (assoc, p) →
      ∀ pr ∈ assoc, loadEmbGroup (descend rel_entries pr.1) = .ok pr.2 := by
  intro embs
  induction embs with
  | nil =>
    intro pos assoc p h pr hpr
    simp only [goEmbs, Except.ok.injEq, Prod.mk.injEq] at h
    rw [← h.1] at hpr
    simp at hpr
  | cons emb rest ih =>
    intro pos assoc p h pr hpr
    simp only [goEmbs] at h
    cases hg : loadEmbGroup (descend rel_entries emb) with
    | error e =>
      simp only [hg] at h
      exact Except.noConfusion h
    | ok runs =>
      simp only [hg] at h
      cases hrec : goEmbs rel_entries rest
          (runs.foldl (fun q r => posStep q r.pos_exs) pos) with
      | error e =>
        simp only [hrec] at h
        exact Except.noConfusion h
      | ok pr2 =>
        obtain ⟨assoc2, pfin⟩ := pr2
        simp only [hrec, Except.ok.injEq, Prod.mk.injEq] at h
        obtain ⟨h1, _⟩ := h
        subst h1
        rcases List.mem_cons.mp hpr with rfl | hpr
        · exact hg
        · exact ih _ assoc2 pfin hrec pr hpr

/-- Entries of a subdirectory come from the parent, with the directory
name restored. -/
theorem mem_descend (entries : FTree) (d : String) (p : List String)
    (c : Content) (h : (p, c) ∈ descend entries d) :
    (d :: p, c) ∈ entries := by
  unfold descend at h
  rw [List.mem_filterMap] at h
  obtain ⟨e, he, hf⟩ := h
  obtain ⟨q, c2⟩ := e
  dsimp only at hf
  cases q with
  | nil => simp at hf
  | cons x rest =>
    by_cases hx : x = d
    · subst hx
      simp only [if_pos rfl, Option.some.injEq, Prod.mk.injEq] at hf
      obtain ⟨rfl, rfl⟩ := hf
      exact he
    · simp only [if_neg hx] at hf
      exact Option.noConfusion hf

/-- Entries of a nested directory come from the root, with the path
restored. -/
theorem mem_descendPath :
    ∀ (path : List String) (entries : FTree) (p : List String)
      (c : Content), (p, c) ∈ descendPath entries path →
      (path ++ p, c) ∈ entries := by
  intro path
  induction path with
  | nil => intro entries p c h; exact h
  | cons d rest ih =>
    intro entries p c h
    have h2 := ih (descend entries d) p c h
    exact mem_descend _ _ _ _ h2

/-- An opened file is an entry of the directory. -/
theorem fileAt_mem (entries : FTree) (name : String) (c : Content)
    (h : fileAt entries name = some c) : ([name], c) ∈ entries := by
  unfold fileAt at h
  cases hg : (entries.filter fun e => e.1 = [name]).getLast? with
  | none => rw [hg] at h; exact Option.noConfusion h
  | some e =>
    rw [hg] at h
    simp at h
    have hmem : e ∈ entries.filter fun e => e.1 = [name] := by
      obtain ⟨hne, heq⟩ :=
        List.mem_getLast?_eq_getLast (Option.mem_def.mpr hg)
      rw [heq]
      exact List.getLast_mem hne
    rw [List.mem_filter] at hmem
    obtain ⟨hent, hname⟩ := hmem
    have hp : e.1 = [name] := by simpa using hname
    have : e = ([name], c) := by
      obtain ⟨q, c2⟩ := e
      simp only at hp h
      rw [hp, h]
    rw [← this]
    exact hent

/-- A successfully loaded run takes its `emb` field from the meta
file of its directory. -/
theorem load_embrun_emb (ents : FTree) (r2 : EmbRunResult)
    (h : load_embrun_result ents = .ok r2) :
    ∃ m, fileAt ents "meta.json" = some (.metaFile m) ∧ r2.emb = m.emb := by
  unfold load_embrun_result at h
  split at h
  · cases h
    exact ⟨_, by assumption, rfl⟩
  · exact Except.noConfusion h

/-- Every stored entry belongs to the run files of some recorded run,
under the directory of its dictionary key. -/
theorem store_mem (dir : List String) (lr : LearnResult)
    (q : List String) (c : Content)
    (h : (q, c) ∈ store_learn_result dir lr) :
    ∃ p ∈ lr.emb_model_results, ∃ er ∈ p.2,
      (q, c) ∈ store_embrun_result
        ((dir ++ [lr.rel_type, lr.rel_name]) ++ [p.1]) er := by
  unfold store_learn_result at h
  rw [List.mem_flatMap] at h
  obtain ⟨p, hp, h⟩ := h
  rw [List.mem_flatMap] at h
  obtain ⟨er, her, h⟩ := h
  exact ⟨p, hp, er, her, h⟩

/-- The meta file of a stored run holds exactly its scalar dictionary,
at the conventional path. -/
theorem store_embrun_meta (emb_dir : List String) (er : EmbRunResult)
    (q : List String) (m : MetaJson)
    (h : (q, .metaFile m) ∈ store_embrun_result emb_dir er) :
    m = metaOf er ∧
    q = (emb_dir ++ [er.model, run_dir_name er.i]) ++ ["meta.json"] := by
  simp only [store_embrun_result, List.mem_cons, List.not_mem_nil,
    or_false, Prod.mk.injEq] at h
  rcases h with ⟨hq, hm⟩ | ⟨_, hm⟩ | ⟨_, hm⟩ | ⟨_, hm⟩ | ⟨_, hm⟩
  · exact ⟨Content.metaFile.inj hm, hq⟩
  all_goals exact absurd hm (by simp)

/-- A successful `learn_rel` either short-circuited (empty results) or
ran the loop to completion. -/
theorem learn_rel_ok_cases {Part D : Type} (tr : TrainerO Part D)
    (relpath : List Char) (rel_meta : RelMeta)
    (data_loaders : List (String × DataLoader Part))
    (single_rel_types : List (List Char)) (epochs_fn : ℕ → ℤ)
    (rel_filter : Option (RelMeta → Bool)) (models : List String)
    (n_runs : ℤ) (disturber : Option D) (debug cuda : Bool)
    (R : LearnResult) (ev : List Ev)
    (h : learn_rel tr relpath rel_meta data_loaders single_rel_types
      epochs_fn rel_filter models n_runs disturber debug cuda =
      (.ok R, ev)) :
    R.emb_model_results = [] ∨
    ∃ ev2, goCombos tr relpath rel_meta data_loaders single_rel_types
      epochs_fn disturber debug cuda
      (combosOf models (data_loaders.map (fun p => p.1)) n_runs) [] =
      (.ok R.emb_model_results, ev2) := by
  unfold learn_rel at h
  by_cases hc : rel_meta.cnt < 75
  · rw [if_pos hc] at h
    simp only [Prod.mk.injEq, Except.ok.injEq] at h
    left
    rw [← h.1]
    rfl
  · rw [if_neg hc] at h
    cases hro : rel_filter with
    | none =>
      rw [hro] at h
      rw [if_neg (by simp)] at h
      split at h
      · next acc ev2 heq =>
        simp only [Prod.mk.injEq, Except.ok.injEq] at h
        right
        refine ⟨ev2, ?_⟩
        rw [← h.1]
        exact heq
      · next e ev2 heq =>
        simp only [Prod.mk.injEq] at h
        exact absurd h.1 (by simp)
    | some f =>
      rw [hro] at h
      by_cases hfv : f rel_meta
      · rw [if_neg (by simp [hfv])] at h
        split at h
        · next acc ev2 heq =>
          simp only [Prod.mk.injEq, Except.ok.injEq] at h
          right
          refine ⟨ev2, ?_⟩
          rw [← h.1]
          exact heq
        · next e ev2 heq =>
          simp only [Prod.mk.injEq] at h
          exact absurd h.1 (by simp)
      · rw [if_pos (by simp [hfv])] at h
        simp only [Prod.mk.injEq, Except.ok.injEq] at h
        left
        rw [← h.1]
        rfl

/-- Claim C8: every run result stored under an embedding-source key has
its `emb` field equal to that key.  The invariant is established by
`learn_rel` (first conjunct) and preserved by a store/load cycle
(second conjunct). -/
theorem C8_emb_key_invariant :
    (∀ (Part D : Type) (tr : TrainerO Part D) (relpath : List Char)
      (rel_meta : RelMeta) (data_loaders : List (String × DataLoader Part))
      (single_rel_types : List (List Char)) (epochs_fn : ℕ → ℤ)
      (rel_filter : Option (RelMeta → Bool)) (models : List String)
      (n_runs : ℤ) (disturber : Option D) (debug cuda : Bool)
      (R : LearnResult) (ev : List Ev),
      learn_rel tr relpath rel_meta data_loaders single_rel_types
        epochs_fn rel_filter models n_runs disturber debug cuda =
        (.ok R, ev) →
      ∀ p ∈ R.emb_model_results, ∀ r ∈ p.2, r.emb = p.1) ∧
    (∀ (dir : List String) (lr : LearnResult) (t n : String)
      (R : LearnResult),
      (∀ p ∈ lr.emb_model_results, ∀ r ∈ p.2, r.emb = p.1) →
      load_learn_result (store_learn_result dir lr) dir t n = .ok R →
      ∀ p ∈ R.emb_model_results, ∀ r ∈ p.2, r.emb = p.1) := by
  constructor
  · intro Part D tr relpath rel_meta data_loaders single_rel_types
      epochs_fn rel_filter models n_runs disturber debug cuda R ev h p hp
      r hr
    rcases learn_rel_ok_cases tr relpath rel_meta data_loaders
      single_rel_types epochs_fn rel_filter models n_runs disturber debug
      cuda R ev h with hemp | ⟨ev2, hgc⟩
    · rw [hemp] at hp
      simp at hp
    · exact goCombos_inv tr relpath rel_meta data_loaders single_rel_types
        epochs_fn disturber debug cuda _ [] _ ev2 hgc (by simp) p hp r hr
  · intro dir lr t n R hinv h p hp r hr
    obtain ⟨assoc, pos, hg, rfl⟩ := load_learn_result_ok _ _ _ _ _ h
    have hgrp := goEmbs_assoc_mem _ _ _ _ _ hg p hp
    unfold loadEmbGroup at hgrp
    obtain ⟨cell, hcell, hcok⟩ := traverseE_ok_mem _ _ hgrp r hr
    unfold embRunCells at hcell
    rw [List.mem_flatMap] at hcell
    obtain ⟨model, _, hcell⟩ := hcell
    rw [List.mem_map] at hcell
    obtain ⟨run, _, rfl⟩ := hcell
    obtain ⟨meta, hmeta, hremb⟩ := load_embrun_emb _ _ hcok
    have hm1 := fileAt_mem _ _ _ hmeta
    have hm2 := mem_descend _ _ _ _ hm1
    have hm3 := mem_descend _ _ _ _ hm2
    have hm4 := mem_descend _ _ _ _ hm3
    have hm5 := mem_descendPath _ _ _ _ hm4
    obtain ⟨grp, hgrpmem, er, herm, hq⟩ := store_mem _ _ _ _ hm5
    obtain ⟨hmeq, hpath⟩ := store_embrun_meta _ _ _ _ hq
    have hkey : p.1 = grp.1 := by
      have h6 : [t, n] ++ [p.1, model, run, "meta.json"] =
          [lr.rel_type, lr.rel_name] ++
            [grp.1, er.model, run_dir_name er.i, "meta.json"] := by
        apply @List.append_cancel_left String dir
        simpa [List.append_assoc] using hpath
      simp only [List.cons_append, List.nil_append, List.cons.injEq] at h6
      exact h6.2.2.1
    rw [hremb, hmeq]
    have her2 : er.emb = grp.1 := hinv grp hgrpmem er herm
    rw [hkey]
    exact her2

/-- Witness for `C8_emb_key_invariant`: the scenario result and its
store/load cycle. -/
theorem C8_witness :
    (∀ p ∈ scenarioResult.emb_model_results, ∀ r ∈ p.2, r.emb = p.1) ∧
    (∀ R : LearnResult,
      load_learn_result (store_learn_result [] scenarioResult) []
        "noun" "plural" = .ok R →
      ∀ p ∈ R.emb_model_results, ∀ r ∈ p.2, r.emb = p.1) :=
  ⟨C8_emb_key_invariant.1 Unit Unit testTrainer "rels".toList testMeta
      [("glove", gloveLoader)] [] (fun _ => 3) none ["logreg"] 2 none
      false false scenarioResult
      [.loadCall "glove", .buildCall "logreg" 2, .loadCall "glove",
        .buildCall "logreg" 2] (by decide),
   fun R hR => C8_emb_key_invariant.2 [] scenarioResult "noun" "plural" R
      (C8_emb_key_invariant.1 Unit Unit testTrainer "rels".toList testMeta
        [("glove", gloveLoader)] [] (fun _ => 3) none ["logreg"] 2 none
        false false scenarioResult
        [.loadCall "glove", .buildCall "logreg" 2, .loadCall "glove",
          .buildCall "logreg" 2] (by decide)) hR⟩

/-! ## The store/load round trip (claim C1)

The round trip rests on three facts: `run_%02d` is injective on run
indices, the stored tree decomposes into nested key-grouped blocks whose
`childDirs`/`descend` enumeration recovers exactly the written grouping,
and the five files of one run read back to the run they came from. -/

/-- The digit character of `d < 10` decodes to `48 + d`. -/
theorem digitChar_toNat (d : ℕ) (h : d < 10) :
    (digitChar d).toNat = 48 + d := by
  interval_cases d <;> decide

/-- Digit lists are nonempty. -/
theorem natDigitsAux_ne_nil (fuel n : ℕ) :
    natDigitsAux (fuel + 1) n ≠ [] := by
  unfold natDigitsAux
  split <;> simp

/-- Appending one digit multiplies the value by ten and adds it. -/
theorem digitsVal_append_digit (l : List Char) (c : Char) :
    digitsVal (l ++ [c]) =
      digitsVal l * 10 + ((c.toNat - '0'.toNat : ℕ) : ℤ) := by
  simp [digitsVal, List.foldl_append]

/-- The digit list of `n` decodes back to `n`. -/
theorem natDigitsAux_val :
    ∀ fuel n, n < fuel → digitsVal (natDigitsAux fuel n) = n := by
  intro fuel
  induction fuel with
  | zero => intro n hn; omega
  | succ f ih =>
    intro n hn
    by_cases h10 : n < 10
    · simp only [natDigitsAux, if_pos h10, digitsVal, List.foldl_cons,
        List.foldl_nil]
      rw [digitChar_toNat n h10]
      have h48 : '0'.toNat = 48 := rfl
      rw [h48]
      push_cast
      omega
    · simp only [natDigitsAux, if_neg h10]
      rw [digitsVal_append_digit]
      have hd : n / 10 < f := by
        have := Nat.div_lt_self (by omega : 0 < n) (by omega : 1 < 10)
        omega
      rw [ih (n / 10) hd]
      rw [digitChar_toNat (n % 10) (Nat.mod_lt n (by omega))]
      have h48 : '0'.toNat = 48 := rfl
      rw [h48]
      have hmod : 48 + n % 10 - 48 = n % 10 := by omega
      rw [hmod]
      have := Nat.div_add_mod n 10
      push_cast
      omega

/-- Decoding inverts encoding. -/
theorem natDigits_val (n : ℕ) : digitsVal (natDigits n) = n :=
  natDigitsAux_val (n + 1) n (by omega)

/-- Decimal encoding of naturals is injective. -/
theorem natDigits_inj (a b : ℕ) (h : natDigits a = natDigits b) : a = b := by
  have hv := congrArg digitsVal h
  rw [natDigits_val, natDigits_val] at hv
  exact_mod_cast hv

/-- A positive number's digit list does not start with `'0'`. -/
theorem natDigitsAux_head_ne_zero :
    ∀ fuel n, 0 < n → n < fuel →
      (natDigitsAux fuel n).head? ≠ some '0' := by
  intro fuel
  induction fuel with
  | zero => intro n _ h; omega
  | succ f ih =>
    intro n hpos hn
    by_cases h10 : n < 10
    · simp only [natDigitsAux, if_pos h10, List.head?_cons]
      intro hc
      have hce := Option.some.inj hc
      revert hce
      interval_cases n <;> decide
    · simp only [natDigitsAux, if_neg h10]
      have hd : n / 10 < f := by
        have := Nat.div_lt_self (by omega : 0 < n) (by omega : 1 < 10)
        omega
      have hdpos : 0 < n / 10 := Nat.div_pos (by omega) (by omega)
      obtain ⟨f2, rfl⟩ : ∃ f2, f = f2 + 1 := ⟨f - 1, by omega⟩
      cases hl : natDigitsAux (f2 + 1) (n / 10) with
      | nil => exact absurd hl (natDigitsAux_ne_nil f2 (n / 10))
      | cons c0 cs =>
        have hh := ih (n / 10) hdpos hd
        rw [hl] at hh
        simpa using hh

/-- `intRepr` on a natural is its digit list. -/
theorem intRepr_natCast (a : ℕ) : intRepr (a : ℤ) = String.mk (natDigits a) := by
  unfold intRepr
  rw [if_neg (by omega)]
  norm_num

/-- The character data of a run directory name. -/
theorem run_dir_name_data (a : ℕ) :
    (run_dir_name (a : ℤ)).data =
      if a < 10 then 'r' :: 'u' :: 'n' :: '_' :: '0' :: natDigits a
      else 'r' :: 'u' :: 'n' :: '_' :: natDigits a := by
  unfold run_dir_name
  by_cases h : a < 10
  · rw [if_pos (by constructor <;> omega), if_pos h, intRepr_natCast]
    rfl
  · rw [if_neg (by omega), if_neg h, intRepr_natCast]
    rfl

/-- `'run_%02d'` is injective on natural run indices. -/
theorem run_dir_name_nat_inj (a b : ℕ)
    (h : run_dir_name (a : ℤ) = run_dir_name (b : ℤ)) : a = b := by
  have hd := congrArg String.data h
  rw [run_dir_name_data, run_dir_name_data] at hd
  by_cases ha : a < 10 <;> by_cases hb : b < 10
  · rw [if_pos ha, if_pos hb] at hd
    simp only [List.cons.injEq, true_and] at hd
    exact natDigits_inj a b hd
  · rw [if_pos ha, if_neg hb] at hd
    simp only [List.cons.injEq, true_and] at hd
    have hh : (natDigits b).head? = some '0' := by rw [← hd]; rfl
    exact absurd hh (natDigitsAux_head_ne_zero (b + 1) b (by omega) (by omega))
  · rw [if_neg ha, if_pos hb] at hd
    simp only [List.cons.injEq, true_and] at hd
    have hh : (natDigits a).head? = some '0' := by rw [hd]; rfl
    exact absurd hh (natDigitsAux_head_ne_zero (a + 1) a (by omega) (by omega))
  · rw [if_neg ha, if_neg hb] at hd
    simp only [List.cons.injEq, true_and] at hd
    exact natDigits_inj a b hd

/-- `descend` distributes over append. -/
theorem descend_append (A B : FTree) (d : String) :
    descend (A ++ B) d = descend A d ++ descend B d := by
  unfold descend
  exact List.filterMap_append A B _

/-- Descending into the directory every entry was just prefixed with
strips the prefix again. -/
theorem descend_cons_map (l : FTree) (d : String) :
    descend (l.map fun e => (d :: e.1, e.2)) d = l := by
  induction l with
  | nil => rfl
  | cons e rest ih =>
    simp only [List.map_cons, descend, List.filterMap_cons] at *
    simp [ih]

/-- Descending into a different directory drops a prefixed block. -/
theorem descend_cons_map_ne (l : FTree) (d d2 : String) (h : d ≠ d2) :
    descend (l.map fun e => (d :: e.1, e.2)) d2 = [] := by
  induction l with
  | nil => rfl
  | cons e rest ih =>
    simp only [List.map_cons, descend, List.filterMap_cons] at *
    simp [h, ih]

/-- Descending a whole path strips a whole-path prefix. -/
theorem descendPath_shift :
    ∀ (path : List String) (l : FTree),
      descendPath (l.map fun e => (path ++ e.1, e.2)) path = l := by
  intro path
  induction path with
  | nil =>
    intro l
    simp [descendPath]
  | cons d rest ih =>
    intro l
    show descendPath
      (descend (l.map fun e => ((d :: rest) ++ e.1, e.2)) d) rest = l
    have hm : (l.map fun e => ((d :: rest) ++ e.1, e.2)) =
        ((l.map fun e => (rest ++ e.1, e.2)).map fun e =>
          (d :: e.1, e.2)) := by
      rw [List.map_map]
      rfl
    rw [hm, descend_cons_map]
    exact ih l

/-- Descending past every block of a grouped tree whose keys all differ
from the target yields nothing. -/
theorem descend_flatMap_ne {ι : Type} (κ : ι → String) (C : ι → FTree)
    (d : String) :
    ∀ I : List ι, (∀ i ∈ I, κ i ≠ d) →
      descend (I.flatMap fun i => (C i).map fun e => (κ i :: e.1, e.2)) d
        = [] := by
  intro I
  induction I with
  | nil => intro _; rfl
  | cons j rest ih =>
    intro h
    rw [List.flatMap_cons, descend_append,
      descend_cons_map_ne _ _ _ (h j (by simp)), List.nil_append]
    exact ih (fun i hi => h i (by simp [hi]))

/-- In a grouped tree with distinct keys, descending into one key
recovers exactly that key's block. -/
theorem descend_grouped {ι : Type} (κ : ι → String) (C : ι → FTree) :
    ∀ I : List ι, (I.map κ).Nodup → ∀ i0 ∈ I,
      descend (I.flatMap fun i => (C i).map fun e => (κ i :: e.1, e.2))
        (κ i0) = C i0 := by
  intro I
  induction I with
  | nil => intro _ i0 hi; simp at hi
  | cons j rest ih =>
    intro hnd i0 hi
    simp only [List.map_cons, List.nodup_cons] at hnd
    rw [List.flatMap_cons, descend_append]
    rcases List.mem_cons.mp hi with rfl | hmem
    · rw [descend_cons_map]
      have hfresh : ∀ i ∈ rest, κ i ≠ κ i0 := by
        intro i hi2 hc
        exact hnd.1 (List.mem_map.mpr ⟨i, hi2, hc⟩)
      rw [descend_flatMap_ne κ C (κ i0) rest hfresh, List.append_nil]
    · have hne : κ j ≠ κ i0 := by
        intro hc
        exact hnd.1 (List.mem_map.mpr ⟨i0, hmem, hc.symm⟩)
      rw [descend_cons_map_ne _ _ _ hne, List.nil_append]
      exact ih hnd.2 i0 hmem

/-- The head components contributed by one prefixed block. -/
theorem heads_of_block (k : String) :
    ∀ l : FTree, (∀ e ∈ l, e.1 ≠ []) →
      ((l.map fun e => (k :: e.1, e.2)).filterMap fun e =>
        match e.1 with | x :: _ :: _ => some x | _ => none) =
      List.replicate l.length k := by
  intro l
  induction l with
  | nil => intro _; rfl
  | cons e rest ih =>
    intro h
    obtain ⟨y, ys, hy⟩ : ∃ y ys, e.1 = y :: ys := by
      cases hc : e.1 with
      | nil => exact absurd hc (h e (by simp))
      | cons y ys => exact ⟨y, ys, rfl⟩
    simp only [List.map_cons, List.filterMap_cons, hy]
    rw [ih (fun e2 he2 => h e2 (by simp [he2]))]
    simp [List.replicate_succ]

/-- The head components of a grouped tree: each key, repeated once per
entry of its block. -/
theorem heads_of_grouped {ι : Type} (κ : ι → String) (C : ι → FTree) :
    ∀ I : List ι, (∀ i ∈ I, ∀ e ∈ C i, e.1 ≠ []) →
      ((I.flatMap fun i => (C i).map fun e =>
        (κ i :: e.1, e.2)).filterMap fun e =>
          match e.1 with | x :: _ :: _ => some x | _ => none) =
      I.flatMap fun i => List.replicate (C i).length (κ i) := by
  intro I
  induction I with
  | nil => intro _; rfl
  | cons j rest ih =>
    intro h
    rw [List.flatMap_cons, List.flatMap_cons, List.filterMap_append,
      heads_of_block (κ j) (C j) (h j (by simp)),
      ih (fun i hi => h i (by simp [hi]))]

/-- Folding `insertNew` over variable-size blocks of fresh distinct keys
appends the keys in block order. -/
theorem foldl_insertNew_groups {ι : Type} (κ : ι → String) (cnt : ι → ℕ) :
    ∀ (I : List ι) (ks : List String), (I.map κ).Nodup →
      (∀ i ∈ I, κ i ∉ ks) → (∀ i ∈ I, 0 < cnt i) →
      ((I.flatMap fun i => List.replicate (cnt i) (κ i)).foldl insertNew
        ks) = ks ++ I.map κ := by
  intro I
  induction I with
  | nil => intro ks _ _ _; simp
  | cons j rest ih =>
    intro ks hnd hfresh hcnt
    simp only [List.map_cons, List.nodup_cons] at hnd
    rw [List.flatMap_cons, List.foldl_append]
    have h1 : insertNew ks (κ j) = ks ++ [κ j] := by
      unfold insertNew
      rw [if_neg (hfresh j (by simp))]
    have hblock : (List.replicate (cnt j) (κ j)).foldl insertNew ks =
        ks ++ [κ j] := by
      obtain ⟨m, hm⟩ : ∃ m, cnt j = m + 1 :=
        ⟨cnt j - 1, by have := hcnt j (by simp); omega⟩
      rw [hm, List.replicate_succ, List.foldl_cons, h1]
      apply foldl_insertNew_mem
      intro x hx
      rw [List.eq_of_mem_replicate hx]
      simp
    rw [hblock]
    have hfresh2 : ∀ i ∈ rest, κ i ∉ ks ++ [κ j] := by
      intro i hi
      simp only [List.mem_append, List.mem_singleton]
      rintro (hin | heq)
      · exact hfresh i (by simp [hi]) hin
      · exact hnd.1 (List.mem_map.mpr ⟨i, hi, heq⟩)
    rw [ih (ks ++ [κ j]) hnd.2 hfresh2 (fun i hi => hcnt i (by simp [hi]))]
    simp [List.append_assoc]

/-- The subdirectories of a grouped tree with distinct keys and nonempty
blocks of nonempty paths are exactly the keys, in order. -/
theorem childDirs_grouped {ι : Type} (κ : ι → String) (C : ι → FTree)
    (I : List ι) (hnd : (I.map κ).Nodup)
    (hne : ∀ i ∈ I, C i ≠ [])
    (hp : ∀ i ∈ I, ∀ e ∈ C i, e.1 ≠ []) :
    childDirs (I.flatMap fun i => (C i).map fun e => (κ i :: e.1, e.2)) =
      I.map κ := by
  unfold childDirs dedupFirst
  rw [heads_of_grouped κ C I hp]
  have h := foldl_insertNew_groups κ (fun i => (C i).length) I [] hnd
    (by simp) (fun i hi => List.length_pos.mpr (hne i hi))
  simpa using h

/-- A run store is the run store at the root, shifted by the prefix. -/
theorem store_embrun_shift (pre : List String) (er : EmbRunResult) :
    store_embrun_result pre er =
      (store_embrun_result [] er).map fun e => (pre ++ e.1, e.2) := by
  simp [store_embrun_result, List.append_assoc]

/-- A run store at the root is its five files under `model/run_NN/`. -/
theorem store_embrun_nil (er : EmbRunResult) :
    store_embrun_result [] er =
      ((runFiles er).map fun e =>
        (run_dir_name er.i :: e.1, e.2)).map fun e =>
          (er.model :: e.1, e.2) := rfl

/-- The five files of a run read back to the run itself. -/
theorem load_embrun_runFiles (er : EmbRunResult) :
    load_embrun_result (runFiles er) = .ok er := rfl

/-- Sequencing a list of successes succeeds with the list. -/
theorem traverseE_map_ok {α : Type} :
    ∀ l : List α, traverseE (l.map Except.ok) = .ok l := by
  intro l
  induction l with
  | nil => rfl
  | cons a rest ih => simp only [List.map_cons, traverseE, ih]

/-- A learn store decomposes as a root-level grouped tree shifted by
`dir_path/rel_type/rel_name`. -/
theorem store_learn_shape (dir : List String) (nm tp : String)
    (pos : Option ℤ) (assoc : List (String × List EmbRunResult)) :
    store_learn_result dir ⟨nm, tp, pos, assoc⟩ =
      (assoc.flatMap fun p =>
        (p.2.flatMap fun er => store_embrun_result [] er).map
          fun e => (p.1 :: e.1, e.2)).map
        fun e => ((dir ++ [tp, nm]) ++ e.1, e.2) := by
  unfold store_learn_result
  rw [List.map_flatMap]
  apply List.flatMap_congr
  intro p _
  rw [List.map_map, List.map_flatMap]
  apply List.flatMap_congr
  intro er _
  rw [store_embrun_shift ((dir ++ [tp, nm]) ++ [p.1]) er]
  apply List.map_congr_left
  intro e _
  simp [Function.comp_def, List.append_assoc]

/-- Descending a stored learn result to its relation directory recovers
the root-level grouped tree. -/
theorem store_learn_descend (dir : List String) (nm tp : String)
    (pos : Option ℤ) (assoc : List (String × List EmbRunResult)) :
    descendPath (store_learn_result dir ⟨nm, tp, pos, assoc⟩)
      (dir ++ [tp, nm]) =
      assoc.flatMap fun p =>
        (p.2.flatMap fun er => store_embrun_result [] er).map
          fun e => (p.1 :: e.1, e.2) := by
  rw [store_learn_shape, descendPath_shift]

/-- A flat map with one nonempty block is nonempty. -/
theorem flatMap_ne_nil {α β : Type} (l : List α) (f : α → List β) (a : α)
    (ha : a ∈ l) (hf : f a ≠ []) : l.flatMap f ≠ [] := by
  obtain ⟨b, hb⟩ := List.exists_mem_of_ne_nil (f a) hf
  exact List.ne_nil_of_mem (List.mem_flatMap.mpr ⟨a, ha, hb⟩)

/-- The stored block of one embedding group, regrouped by model and run
directory: the nested grouped-tree shape the loader enumerates. -/
theorem store_group_shape (models : List String) (n : ℕ)
    (H : String → ℕ → EmbRunResult)
    (hHm : ∀ m r, (H m r).model = m)
    (hHi : ∀ m r, (H m r).i = (r : ℤ)) :
    ((models.flatMap fun m => (List.range n).map fun r => H m r).flatMap
      fun er => store_embrun_result [] er) =
    models.flatMap fun m =>
      ((List.range n).flatMap fun r =>
        (runFiles (H m r)).map fun e =>
          (run_dir_name (r : ℤ) :: e.1, e.2)).map
        fun e => (m :: e.1, e.2) := by
  rw [List.flatMap_assoc]
  apply List.flatMap_congr
  intro m _
  rw [List.flatMap_map, List.map_flatMap]
  apply List.flatMap_congr
  intro r _
  rw [store_embrun_nil (H m r), hHm m r, hHi m r, List.map_map]

/-- Loading the embedding directories in enumeration order, when every
group loads. -/
theorem goEmbs_all_ok (rel_entries : FTree)
    (G : String → List EmbRunResult) :
    ∀ (embs : List String) (pos : Option ℤ),
      (∀ k ∈ embs, loadEmbGroup (descend rel_entries k) = .ok (G k)) →
      goEmbs rel_entries embs pos =
        .ok (embs.map fun k => (k, G k),
          embs.foldl (fun p k => (G k).foldl
            (fun q r => posStep q r.pos_exs) p) pos) := by
  intro embs
  induction embs with
  | nil => intro pos _; rfl
  | cons k rest ih =>
    intro pos h
    have h1 := h k (by simp)
    have h2 := ih ((G k).foldl (fun q r => posStep q r.pos_exs) pos)
      (fun k2 hk2 => h k2 (by simp [hk2]))
    simp only [goEmbs, h1, h2]
    rfl

/-- A truthy accumulator survives any further runs. -/
theorem posStep_foldl_runs (l : List EmbRunResult) (z : ℤ) (hz : z ≠ 0) :
    l.foldl (fun q r => posStep q r.pos_exs) (some z) = some z := by
  rw [← List.foldl_map (fun r : EmbRunResult => r.pos_exs) posStep]
  exact posStep_foldl_stay z hz _

/-- A nonempty run list whose values all equal a nonzero constant sets
the accumulator to that constant. -/
theorem posStep_foldl_runs_first (l : List EmbRunResult) (c : ℤ)
    (hc : c ≠ 0) (hall : ∀ r ∈ l, r.pos_exs = c) (hne : l ≠ []) :
    l.foldl (fun q r => posStep q r.pos_exs) none = some c := by
  cases l with
  | nil => exact absurd rfl hne
  | cons r rest =>
    rw [List.foldl_cons]
    have h1 : posStep none r.pos_exs = some c := by
      rw [hall r (by simp)]; rfl
    rw [h1]
    exact posStep_foldl_runs rest c hc

/-- A truthy accumulator survives any further groups. -/
theorem posStep_foldl_groups (G : String → List EmbRunResult) (c : ℤ)
    (hc : c ≠ 0) :
    ∀ embs : List String,
      embs.foldl (fun p k => (G k).foldl
        (fun q r => posStep q r.pos_exs) p) (some c) = some c := by
  intro embs
  induction embs with
  | nil => rfl
  | cons k rest ih =>
    rw [List.foldl_cons, posStep_foldl_runs (G k) c hc]
    exact ih

/-- With every stored run carrying the same nonzero count, the threaded
accumulator ends at that count. -/
theorem posStep_groups_first (G : String → List EmbRunResult) (c : ℤ)
    (hc : c ≠ 0) (K : List String) (hK : K ≠ [])
    (hne : ∀ k ∈ K, G k ≠ [])
    (hall : ∀ k ∈ K, ∀ r ∈ G k, r.pos_exs = c) :
    K.foldl (fun p k => (G k).foldl
      (fun q r => posStep q r.pos_exs) p) none = some c := by
  cases K with
  | nil => exact absurd rfl hK
  | cons k rest =>
    rw [List.foldl_cons,
      posStep_foldl_runs_first (G k) c hc (hall k (by simp))
        (hne k (by simp))]
    exact posStep_foldl_groups G c hc rest

/-- Loading one embedding directory of the stored nested grouped shape
yields every run of every model, in enumeration order: model
subdirectories in write order, run subdirectories in run order. -/
theorem loadEmbGroup_grouped (models : List String) (n : ℕ)
    (hmnd : models.Nodup) (hn : 0 < n) (H : String → ℕ → EmbRunResult) :
    loadEmbGroup (models.flatMap fun m =>
      ((List.range n).flatMap fun r =>
        (runFiles (H m r)).map fun e =>
          (run_dir_name (r : ℤ) :: e.1, e.2)).map
        fun e => (m :: e.1, e.2)) =
    .ok (models.flatMap fun m => (List.range n).map fun r => H m r) := by
  have hrdn : ((List.range n).map fun r : ℕ =>
      run_dir_name (r : ℤ)).Nodup :=
    List.Nodup.map (fun a b h => run_dir_name_nat_inj a b h)
      (List.nodup_range n)
  have hDne : ∀ m ∈ models, ((List.range n).flatMap fun r =>
      (runFiles (H m r)).map fun e =>
        (run_dir_name (r : ℤ) :: e.1, e.2)) ≠ [] := by
    intro m _
    apply flatMap_ne_nil _ _ 0 (List.mem_range.mpr hn)
    simp [runFiles]
  have hDp : ∀ m ∈ models, ∀ e ∈ ((List.range n).flatMap fun r =>
      (runFiles (H m r)).map fun e =>
        (run_dir_name (r : ℤ) :: e.1, e.2)), e.1 ≠ [] := by
    intro m _ e he
    rw [List.mem_flatMap] at he
    obtain ⟨r, _, he⟩ := he
    rw [List.mem_map] at he
    obtain ⟨e2, _, rfl⟩ := he
    simp
  unfold loadEmbGroup embRunCells
  have hchild2 : childDirs (models.flatMap fun m =>
      ((List.range n).flatMap fun r =>
        (runFiles (H m r)).map fun e =>
          (run_dir_name (r : ℤ) :: e.1, e.2)).map
        fun e => (m :: e.1, e.2)) = models := by
    have h := childDirs_grouped (fun m : String => m)
      (fun m => (List.range n).flatMap fun r =>
        (runFiles (H m r)).map fun e =>
          (run_dir_name (r : ℤ) :: e.1, e.2))
      models (by simpa using hmnd) hDne hDp
    simpa using h
  rw [hchild2]
  have hcells : (models.flatMap fun model =>
      (childDirs (descend (models.flatMap fun m =>
        ((List.range n).flatMap fun r =>
          (runFiles (H m r)).map fun e =>
            (run_dir_name (r : ℤ) :: e.1, e.2)).map
          fun e => (m :: e.1, e.2)) model)).map fun run =>
        load_embrun_result (descend (descend (models.flatMap fun m =>
          ((List.range n).flatMap fun r =>
            (runFiles (H m r)).map fun e =>
              (run_dir_name (r : ℤ) :: e.1, e.2)).map
            fun e => (m :: e.1, e.2)) model) run)) =
      models.flatMap fun m => (List.range n).map fun r =>
        Except.ok (H m r) := by
    apply List.flatMap_congr
    intro m hm
    have hdm : descend (models.flatMap fun m2 =>
        ((List.range n).flatMap fun r =>
          (runFiles (H m2 r)).map fun e =>
            (run_dir_name (r : ℤ) :: e.1, e.2)).map
          fun e => (m2 :: e.1, e.2)) m =
        ((List.range n).flatMap fun r =>
          (runFiles (H m r)).map fun e =>
            (run_dir_name (r : ℤ) :: e.1, e.2)) := by
      have h := descend_grouped (fun m2 : String => m2)
        (fun m2 => (List.range n).flatMap fun r =>
          (runFiles (H m2 r)).map fun e =>
            (run_dir_name (r : ℤ) :: e.1, e.2))
        models (by simpa using hmnd) m hm
      exact h
    rw [hdm]
    have hchild3 : childDirs ((List.range n).flatMap fun r =>
        (runFiles (H m r)).map fun e =>
          (run_dir_name (r : ℤ) :: e.1, e.2)) =
        (List.range n).map fun r : ℕ => run_dir_name (r : ℤ) := by
      have h := childDirs_grouped (fun r : ℕ => run_dir_name (r : ℤ))
        (fun r => runFiles (H m r)) (List.range n) hrdn
        (by intro r _; simp [runFiles])
        (by
          intro r _ e he
          simp only [runFiles, List.mem_cons, List.not_mem_nil,
            or_false] at he
          rcases he with h1 | h1 | h1 | h1 | h1 <;> simp [h1])
      exact h
    rw [hchild3, List.map_map]
    apply List.map_congr_left
    intro r hr
    simp only [Function.comp_def]
    have hdr : descend ((List.range n).flatMap fun r2 =>
        (runFiles (H m r2)).map fun e =>
          (run_dir_name (r2 : ℤ) :: e.1, e.2)) (run_dir_name (r : ℤ)) =
        runFiles (H m r) := by
      have h := descend_grouped (fun r2 : ℕ => run_dir_name (r2 : ℤ))
        (fun r2 => runFiles (H m r2)) (List.range n) hrdn r hr
      exact h
    rw [hdr, load_embrun_runFiles]
  rw [hcells]
  have hok : (models.flatMap fun m => (List.range n).map fun r =>
      (Except.ok (H m r) : Except String EmbRunResult)) =
      (models.flatMap fun m => (List.range n).map fun r => H m r).map
        (Except.ok : EmbRunResult → Except String EmbRunResult) := by
    simp [List.map_flatMap, List.map_map, Function.comp_def]
  rw [hok, traverseE_map_ok]

/-- The exact round trip for a product-shaped result: storing the result
whose groups are the full (model, run) product under distinct loader
keys and distinct models, with a nonzero positive count on every run,
and loading the directory back reproduces the result field for field. -/
theorem store_load_product (dir : List String) (nm tp : String) (cnt : ℤ)
    (K models : List String) (n : ℕ)
    (F : String → String → ℕ → EmbRunResult)
    (hKnd : K.Nodup) (hK : K ≠ []) (hmnd : models.Nodup)
    (hm : models ≠ []) (hn : 0 < n) (hcnt : cnt ≠ 0)
    (hFm : ∀ k ∈ K, ∀ m r, (F m k r).model = m)
    (hFi : ∀ k ∈ K, ∀ m r, (F m k r).i = (r : ℤ))
    (hFp : ∀ k ∈ K, ∀ m r, (F m k r).pos_exs = cnt) :
    load_learn_result
      (store_learn_result dir ⟨nm, tp, some cnt,
        K.map fun k => (k, models.flatMap fun m =>
          (List.range n).map fun r => F m k r)⟩)
      dir tp nm =
    .ok ⟨nm, tp, some cnt,
      K.map fun k => (k, models.flatMap fun m =>
        (List.range n).map fun r => F m k r)⟩ := by
  have hrel : descendPath
      (store_learn_result dir ⟨nm, tp, some cnt,
        K.map fun k => (k, models.flatMap fun m =>
          (List.range n).map fun r => F m k r)⟩)
      (dir ++ [tp, nm]) =
      K.flatMap fun k =>
        ((models.flatMap fun m => (List.range n).map fun r =>
          F m k r).flatMap fun er => store_embrun_result [] er).map
          fun e => (k :: e.1, e.2) := by
    rw [store_learn_descend, List.flatMap_map]
  have hCne : ∀ k ∈ K, ((models.flatMap fun m =>
      (List.range n).map fun r => F m k r).flatMap fun er =>
        store_embrun_result [] er) ≠ [] := by
    intro k _
    obtain ⟨m0, hm0⟩ := List.exists_mem_of_ne_nil models hm
    apply flatMap_ne_nil _ _ (F m0 k 0)
    · exact List.mem_flatMap.mpr ⟨m0, hm0,
        List.mem_map.mpr ⟨0, List.mem_range.mpr hn, rfl⟩⟩
    · simp [store_embrun_result]
  have hCp : ∀ k ∈ K, ∀ e ∈ ((models.flatMap fun m =>
      (List.range n).map fun r => F m k r).flatMap fun er =>
        store_embrun_result [] er), e.1 ≠ [] := by
    intro k _ e he
    rw [List.mem_flatMap] at he
    obtain ⟨er, _, he⟩ := he
    simp only [store_embrun_result, List.mem_cons, List.not_mem_nil,
      or_false] at he
    rcases he with h1 | h1 | h1 | h1 | h1 <;> simp [h1]
  have hchild : childDirs (K.flatMap fun k =>
      ((models.flatMap fun m => (List.range n).map fun r =>
        F m k r).flatMap fun er => store_embrun_result [] er).map
        fun e => (k :: e.1, e.2)) = K := by
    have h := childDirs_grouped (fun k : String => k)
      (fun k => (models.flatMap fun m => (List.range n).map fun r =>
        F m k r).flatMap fun er => store_embrun_result [] er)
      K (by simpa using hKnd) hCne hCp
    simpa using h
  have hne_rel : (K.flatMap fun k =>
      ((models.flatMap fun m => (List.range n).map fun r =>
        F m k r).flatMap fun er => store_embrun_result [] er).map
        fun e => (k :: e.1, e.2)) ≠ [] := by
    intro hc
    exact hK (by rw [← hchild, hc]; rfl)
  have hload : ∀ k ∈ K, loadEmbGroup (descend (K.flatMap fun k2 =>
      ((models.flatMap fun m => (List.range n).map fun r =>
        F m k2 r).flatMap fun er => store_embrun_result [] er).map
        fun e => (k2 :: e.1, e.2)) k) =
      .ok (models.flatMap fun m => (List.range n).map fun r =>
        F m k r) := by
    intro k hk
    have hdk : descend (K.flatMap fun k2 =>
        ((models.flatMap fun m => (List.range n).map fun r =>
          F m k2 r).flatMap fun er => store_embrun_result [] er).map
          fun e => (k2 :: e.1, e.2)) k =
        ((models.flatMap fun m => (List.range n).map fun r =>
          F m k r).flatMap fun er => store_embrun_result [] er) := by
      have h := descend_grouped (fun k2 : String => k2)
        (fun k2 => (models.flatMap fun m => (List.range n).map fun r =>
          F m k2 r).flatMap fun er => store_embrun_result [] er)
        K (by simpa using hKnd) k hk
      exact h
    rw [hdk,
      store_group_shape models n (fun m r => F m k r)
        (hFm k hk) (hFi k hk)]
    exact loadEmbGroup_grouped models n hmnd hn (fun m r => F m k r)
  have hGne : ∀ k ∈ K, (models.flatMap fun m =>
      (List.range n).map fun r => F m k r) ≠ [] := by
    intro k _
    obtain ⟨m0, hm0⟩ := List.exists_mem_of_ne_nil models hm
    apply flatMap_ne_nil _ _ m0 hm0
    intro hc
    rw [List.map_eq_nil_iff, List.range_eq_nil] at hc
    omega
  have hGall : ∀ k ∈ K, ∀ r ∈ (models.flatMap fun m =>
      (List.range n).map fun r => F m k r), r.pos_exs = cnt := by
    intro k hk r hr
    rw [List.mem_flatMap] at hr
    obtain ⟨m, _, hr⟩ := hr
    rw [List.mem_map] at hr
    obtain ⟨r2, _, rfl⟩ := hr
    exact hFp k hk m r2
  have hfold := posStep_groups_first
    (fun k => models.flatMap fun m => (List.range n).map fun r => F m k r)
    cnt hcnt K hK hGne hGall
  simp only [load_learn_result]
  rw [hrel, if_neg hne_rel, hchild,
    goEmbs_all_ok _
      (fun k => models.flatMap fun m => (List.range n).map fun r =>
        F m k r) K none hload,
    hfold]

/-- Counterexample to claim C1 as stated: the round trip does not hold
for every result `learn_rel` produces.  With a duplicated model list,
`learn_rel` records the same (model, run) pair twice under one loader
key; both copies are stored at the same `model/run_00` path, so the
loader finds a single run directory and returns one entry — a run is
lost.  An empty result (the short-circuit value, also produced by
`learn_rel`) stores no files at all, so loading its directory raises
`FileNotFoundError` instead of reproducing the result. -/
theorem C1_counterexample :
    dupRun.1 = .ok dupResult ∧
    load_learn_result (store_learn_result [] dupResult) []
        dupResult.rel_type dupResult.rel_name =
      .ok ⟨"plural", "noun", some 100, [("glove", [scenarioEntry 0])]⟩ ∧
    load_learn_result (store_learn_result [] dupResult) []
        dupResult.rel_type dupResult.rel_name ≠ .ok dupResult ∧
    load_learn_result (store_learn_result [] (empty_result testMeta)) []
        (empty_result testMeta).rel_type
        (empty_result testMeta).rel_name =
      .error "FileNotFoundError" := by
  decide

/-- Claim C1 (amended): for every result `learn_rel` produces from a
relation passing the count and filter checks with a nonempty and
duplicate-free model list, a nonempty loader dictionary with
duplicate-free keys, a positive run count, binary labels and buildable
models, storing the result into any directory and loading that
directory back reproduces the result exactly: every scalar field of
every run (model, run index, embedding source, epochs, positive count,
dataset size and token counts), every tabular and metric payload, and
the order of keys and rows. -/
theorem C1_roundtrip {Part D : Type} (tr : TrainerO Part D)
    (relpath : List Char) (rel_meta : RelMeta)
    (data_loaders : List (String × DataLoader Part))
    (single_rel_types : List (List Char)) (epochs_fn : ℕ → ℤ)
    (rel_filter : Option (RelMeta → Bool)) (models : List String)
    (n_runs : ℤ) (disturber : Option D) (debug : Bool) (cuda : Bool)
    (dir : List String) (R : LearnResult)
    (hcnt : ¬ rel_meta.cnt < 75)
    (hfilter : ∀ f, rel_filter = some f → f rel_meta = true)
    (hm : models ≠ []) (hmnd : models.Nodup) (hn : 0 < n_runs)
    (hdl : data_loaders ≠ [])
    (hkeys : (data_loaders.map (fun p => p.1)).Nodup)
    (hY : ∀ p ∈ data_loaders, ∃ y ys,
      (loadFor p.2 rel_meta single_rel_types relpath).Y = y :: ys ∧
      ys.foldl max y = 1 ∧ ys.foldl min y = 0)
    (hbuild : ∀ p ∈ data_loaders, ∀ m ∈ models, ∃ bm,
      build_model m
        (loadFor p.2 rel_meta single_rel_types relpath).shape.2 = .ok bm)
    (hR : (learn_rel tr relpath rel_meta data_loaders single_rel_types
        epochs_fn rel_filter models n_runs disturber debug cuda).1 =
      .ok R) :
    load_learn_result (store_learn_result dir R) dir R.rel_type
      R.rel_name = .ok R := by
  have hchar := learn_rel_characterization tr relpath rel_meta
    data_loaders single_rel_types epochs_fn rel_filter models n_runs
    disturber debug cuda hcnt hfilter hm hn hkeys hY hbuild
  rw [hR] at hchar
  have hReq := Except.ok.inj hchar
  subst hReq
  have hfields := fun (ln : String)
      (hln : ln ∈ data_loaders.map (fun p => p.1)) (m : String)
      (run : ℕ) =>
    mkRunL_fields tr relpath rel_meta data_loaders single_rel_types
      epochs_fn disturber debug cuda m ln run hln
  exact store_load_product dir (String.mk rel_meta.name)
    (String.mk rel_meta.type) rel_meta.cnt
    (data_loaders.map (fun p => p.1)) models n_runs.toNat
    (fun m ln run => mkRunL tr relpath rel_meta data_loaders
      single_rel_types epochs_fn disturber debug cuda m ln run)
    hkeys (fun hc => hdl (List.map_eq_nil_iff.mp hc)) hmnd hm
    (by omega) (by omega)
    (fun k hk m r => (hfields k hk m r).1)
    (fun k hk m r => (hfields k hk m r).2.2.1)
    (fun k hk m r => (hfields k hk m r).2.2.2)

/-- Witness for `C1_roundtrip`: the end-to-end glove scenario stores to
`out/noun/plural/...` and loads back to the very same result. -/
theorem C1_witness :
    load_learn_result (store_learn_result ["out"] scenarioResult) ["out"]
      scenarioResult.rel_type scenarioResult.rel_name =
      .ok scenarioResult :=
  C1_roundtrip testTrainer "rels".toList testMeta
    [("glove", gloveLoader)] [] (fun _ => 3) none ["logreg"] 2 none false
    false ["out"] scenarioResult (by decide) (fun f h => nomatch h)
    (by decide) (by decide) (by decide)
    (fun hc => List.noConfusion hc) (by decide)
    (by
      intro p hp
      simp only [List.mem_singleton] at hp
      subst hp
      exact ⟨0, [1, 0, 1], rfl, by decide, by decide⟩)
    (by
      intro p hp m hmm
      simp only [List.mem_singleton] at hp
      simp only [List.mem_singleton] at hmm
      subst hp
      subst hmm
      exact ⟨.logisticRegression 2, rfl⟩)
    (by decide)
